import Mathlib

/-
  Verification of the label-anchored numeric-extraction engine of
  DealMover_OA (src/backend/core/parsing.py).

  The program is shallowly embedded: Python strings become `List Char`,
  `re` patterns are hand-compiled into deterministic matching functions
  (the patterns involved admit no observable backtracking except where
  noted and resolved below), `decimal.Decimal` values become pairs
  `Int × Int` of mantissa and exponent (value `m * 10 ^ e`), and
  `Optional[str]` becomes `Option (List Char)`.
-/

namespace DealMover

/-! ## Character classes (ASCII fragment of Python `str` semantics) -/

/-- Python whitespace (`\s`, `str.strip`): space, tab, newline, carriage
return, vertical tab, form feed. -/
def isWs (c : Char) : Bool :=
  c = ' ' || c = '\t' || c = '\n' || c = '\r' || c = '\x0b' || c = '\x0c'

/-- ASCII decimal digit (`\d`, `str.isdigit`). -/
def isDigitC (c : Char) : Bool :=
  '0' ≤ c && c ≤ '9'

/-- Python `\w` word character: letter, digit or underscore. -/
def isWordChar (c : Char) : Bool :=
  c.isAlphanum || c = '_'

/-- Case folding for the `re.IGNORECASE` label patterns. -/
def lc (c : Char) : Char := c.toLower

/-! ## Python string primitives -/

/-- Drop trailing whitespace. -/
def dropTrailWs (l : List Char) : List Char :=
  (l.reverse.dropWhile isWs).reverse

/-- Python `str.strip()`. -/
def pyStrip (l : List Char) : List Char :=
  dropTrailWs (l.dropWhile isWs)

/-- Python `str.replace(c, '')`: remove every occurrence of `c`. -/
def removeChar (c : Char) (l : List Char) : List Char :=
  l.filter (fun x => x != c)

/-- The shared normalization step
`value.strip().replace('$','').replace(',','').replace(' ','').replace('.','')`
(parsing.py lines 20, 28, 39, 51). -/
def stripReplace (l : List Char) : List Char :=
  removeChar '.' (removeChar ' ' (removeChar ',' (removeChar '$' (pyStrip l))))

/-- As `stripReplace` but additionally removing parentheses:
`....replace('(','').replace(')','')` (parsing.py lines 93, 137). -/
def stripReplaceParens (l : List Char) : List Char :=
  removeChar ')' (removeChar '(' (stripReplace l))

/-- Numeric value of a digit string, as Python `int` on an all-digit
string (used only after an `isdigit` check). -/
def digitsVal (l : List Char) : Nat :=
  l.foldl (fun a c => 10 * a + (c.toNat - '0'.toNat)) 0

/-! ## Normalizer and classifiers -/

/-- `_normalize_value` (parsing.py lines 18-23): strip, remove `$`, `,`,
space and `.`, then turn an outer parenthesis pair into a leading `-`. -/
def normalizeValue (l : List Char) : List Char :=
  let v := stripReplace l
  if v.head? = some '(' ∧ v.getLast? = some ')' then
    '-' :: (v.drop 1).dropLast
  else v

/-- `_looks_like_year` (parsing.py lines 26-29): after `stripReplace`,
exactly 4 digits with value in [1900, 2100]. -/
def looksLikeYear (l : List Char) : Bool :=
  let t := stripReplace l
  t.length == 4 && t.all isDigitC
    && decide (1900 ≤ digitsVal t) && decide (digitsVal t ≤ 2100)

/-- The per-token test of `_money_like_tokens` (parsing.py lines 38-42):
has `$`, has a grouping character, or ≥ 4 digits after normalization. -/
def moneyLikeRaw (raw : List Char) : Bool :=
  let norm := stripReplace raw
  let hasGroup := raw.contains ',' || raw.contains ' ' || raw.contains '.'
  raw.contains '$' || hasGroup || (norm.all isDigitC && decide (4 ≤ norm.length))

/-- `_money_like_tokens` (parsing.py lines 32-43), including the
`good or tokens` fallback to the original list. -/
def moneyLikeTokens (tokens : List (List Char)) : List (List Char) :=
  let good := tokens.filter moneyLikeRaw
  if good.isEmpty then tokens else good

/-! ## Candidate scorer -/

/-- `_score_token` (parsing.py lines 46-62). -/
def scoreToken (raw : List Char) : Int :=
  let hasDollar := raw.contains '$'
  let hasParen := raw.contains '(' && raw.contains ')'
  let hasGroup := raw.contains ',' || raw.contains ' ' || raw.contains '.'
  let norm := stripReplace raw
  let isYear := looksLikeYear raw
  let s1 : Int := if hasDollar then 4 else 0
  let s2 : Int := s1 + (if hasGroup then 3 else 0)
  let s3 : Int := s2 + (if 6 ≤ norm.length then 3
                        else if 4 ≤ norm.length then 2 else -2)
  let s4 : Int := s3 + (if hasParen then 1 else 0)
  s4 + (if isYear && !hasDollar then -5 else 0)

/-- The index-tracking loop of `_pick_best` (parsing.py lines 70-75):
`best_idx`/`best_score` start at `-1` and `-10^9`; an entry wins when its
score is strictly greater, or equal with a larger index. -/
def pickLoop : List (List Char) → Int → Int → Int → Int
  | [], _, bestIdx, _ => bestIdx
  | c :: rest, idx, bestIdx, bestScore =>
    let s := scoreToken c
    if s > bestScore ∨ (s = bestScore ∧ idx > bestIdx) then
      pickLoop rest (idx + 1) idx s
    else
      pickLoop rest (idx + 1) bestIdx bestScore

/-- `_pick_best` (parsing.py lines 65-76). -/
def pickBest (candidates : List (List Char)) : Option (List Char) :=
  if candidates.isEmpty then none
  else
    let cs := moneyLikeTokens candidates
    cs.get? (pickLoop cs 0 (-1) (-(10 : Int) ^ 9)).toNat

/-- `_pick_leftmost` (parsing.py lines 103-105). -/
def pickLeftmost (candidates : List (List Char)) : Option (List Char) :=
  candidates.head?

/-! ## Tokenizer: hand-compiled `_NUMBER_RE`

`_NUMBER_RE = \(?\s*\$?\s*\d{1,3}(?:\s*[,\.\s]\s*\d{3})*(?:\.\d+)?\s*\)?`
(parsing.py lines 9-11).  Every quantifier here is greedy, and since the
whole suffix of the pattern after `\d{1,3}` can match the empty string,
the greedy choices are final except inside one repetition of
`\s*[,\.\s]\s*\d{3}`, where the two `\s*` backtrack against the separator
class; that repetition succeeds exactly when the maximal run of
separator-class characters at the current position is non-empty, contains
at most one non-whitespace character, and is followed by three digits. -/

/-- Separator class `[,\.\s]`. -/
def isSep (c : Char) : Bool :=
  isWs c || c = ',' || c = '.'

/-- Match an optional single literal character (`\(?`, `\$?`, `\)?`).
Returns (consumed, rest). -/
def takeOpt (c : Char) (l : List Char) : List Char × List Char :=
  match l with
  | x :: rest => if x = c then ([c], rest) else ([], l)
  | [] => ([], [])

/-- Take up to `n` leading digits (`\d{1,3}` takes `takeUpToDigits 3`).
Returns (digits, rest). -/
def takeUpToDigits : Nat → List Char → List Char × List Char
  | 0, l => ([], l)
  | _ + 1, [] => ([], [])
  | n + 1, c :: rest =>
    if isDigitC c then
      let p := takeUpToDigits n rest
      (c :: p.1, p.2)
    else ([], c :: rest)

/-- The repetition `(?:\s*[,\.\s]\s*\d{3})*`: each iteration consumes the
maximal separator run (which must be non-empty with at most one
non-whitespace character) followed by exactly three digits.  Fuel bounds
the number of iterations; each successful iteration consumes at least
four characters, so `l.length` fuel suffices. -/
def matchGroups : Nat → List Char → List Char × List Char
  | 0, l => ([], l)
  | fuel + 1, l =>
    let r := l.takeWhile isSep
    let l1 := l.dropWhile isSep
    let d := (takeUpToDigits 3 l1).1
    let l2 := (takeUpToDigits 3 l1).2
    if r.isEmpty || decide (1 < (r.filter (fun c => !isWs c)).length)
        || d.length != 3 then
      ([], l)
    else
      let p := matchGroups fuel l2
      (r ++ d ++ p.1, p.2)

/-- The optional fraction `(?:\.\d+)?`. -/
def matchFrac (l : List Char) : List Char × List Char :=
  if l.head? = some '.' then
    let d := l.tail.takeWhile isDigitC
    if d.isEmpty then ([], l) else ('.' :: d, l.tail.dropWhile isDigitC)
  else ([], l)

/-- Match `_NUMBER_RE` anchored at the head of `l`; returns the matched
token and the rest, or `none` when the pattern does not match here. -/
def matchNumberAt (l : List Char) : Option (List Char × List Char) :=
  let p1 := takeOpt '(' l
  let w1 := p1.2.takeWhile isWs
  let l2 := p1.2.dropWhile isWs
  let p3 := takeOpt '$' l2
  let w2 := p3.2.takeWhile isWs
  let l4 := p3.2.dropWhile isWs
  let p5 := takeUpToDigits 3 l4
  if p5.1.isEmpty then none
  else
    let p6 := matchGroups p5.2.length p5.2
    let p7 := matchFrac p6.2
    let w3 := p7.2.takeWhile isWs
    let l8 := p7.2.dropWhile isWs
    let p9 := takeOpt ')' l8
    some (p1.1 ++ w1 ++ p3.1 ++ w2 ++ p5.1 ++ p6.1 ++ p7.1 ++ w3 ++ p9.1, p9.2)

/-- `re.finditer` scanning: try the pattern at each position, emit
non-overlapping matches left to right, resume after each match.  `pos`
is the absolute offset of `l` in the original line. -/
def scanTokens : Nat → List Char → Nat → List (Nat × List Char)
  | 0, _, _ => []
  | _ + 1, [], _ => []
  | fuel + 1, c :: rest, pos =>
    match matchNumberAt (c :: rest) with
    | some (tok, r) => (pos, tok) :: scanTokens fuel r (pos + tok.length)
    | none => scanTokens fuel rest (pos + 1)

/-- `[m.group(0) for m in _NUMBER_RE.finditer(line, pos=startIdx)]`. -/
def numberTokensFrom (line : List Char) (startIdx : Nat) : List (List Char) :=
  (scanTokens (line.drop startIdx).length (line.drop startIdx) startIdx).map Prod.snd

/-! ## Label matchers

`_REVENUE_LABEL_RE = \bRevenues?\b` and
`_COS_LABEL_RE = \bCost\s+of\s+(Sales|Revenue|Revenues)\b`, both
`re.IGNORECASE` (parsing.py lines 14-15).  `re.search` finds the
leftmost starting position; the leading `\b` is checked by the scanning
driver against the previous character. -/

/-- Is the trailing word boundary satisfied at the head of `l`? -/
def bAtHead (l : List Char) : Bool :=
  match l with
  | [] => true
  | c :: _ => !isWordChar c

/-- Case-insensitive literal-word test at the head of `l`. -/
def headIs (l : List Char) (w : List Char) : Bool :=
  (l.take w.length).map lc == w

/-- Match `Revenues?\b` at the head of `l` (the greedy `s?` backtracks:
if `s` is present but followed by a word character, the 7-character
variant would also end before a word character, so the match fails). -/
def matchRevenueHere (l : List Char) : Option Nat :=
  if headIs l ['r', 'e', 'v', 'e', 'n', 'u', 'e'] then
    if headIs (l.drop 7) ['s'] then
      if bAtHead (l.drop 8) then some 8 else none
    else
      if bAtHead (l.drop 7) then some 7 else none
  else none

/-- The ordered alternation `(Sales|Revenue|Revenues)\b`. -/
def matchAltSales (l : List Char) : Option Nat :=
  if headIs l ['s', 'a', 'l', 'e', 's'] && bAtHead (l.drop 5) then some 5
  else if headIs l ['r', 'e', 'v', 'e', 'n', 'u', 'e'] && bAtHead (l.drop 7) then some 7
  else if headIs l ['r', 'e', 'v', 'e', 'n', 'u', 'e', 's'] && bAtHead (l.drop 8) then some 8
  else none

/-- Match `Cost\s+of\s+(Sales|Revenue|Revenues)\b` at the head of `l`. -/
def matchCosHere (l : List Char) : Option Nat :=
  if headIs l ['c', 'o', 's', 't'] then
    let r1 := l.drop 4
    let v1 := r1.takeWhile isWs
    let r2 := r1.dropWhile isWs
    if v1.isEmpty then none
    else if headIs r2 ['o', 'f'] then
      let r3 := r2.drop 2
      let v2 := r3.takeWhile isWs
      let r4 := r3.dropWhile isWs
      if v2.isEmpty then none
      else
        match matchAltSales r4 with
        | some k => some (4 + v1.length + 2 + v2.length + k)
        | none => none
    else none
  else none

/-- `re.search` driver: scan positions left to right, checking the
leading `\b` against the previous character; returns (start, end). -/
def searchLabelAux (matchHere : List Char → Option Nat) :
    Nat → Option Char → List Char → Nat → Option (Nat × Nat)
  | 0, _, _, _ => none
  | fuel + 1, prev, l, pos =>
    let okB := match prev with
      | none => true
      | some c => !isWordChar c
    match (if okB then matchHere l else none) with
    | some n => some (pos, pos + n)
    | none =>
      match l with
      | [] => none
      | c :: rest => searchLabelAux matchHere fuel (some c) rest (pos + 1)

/-- `_REVENUE_LABEL_RE.search(line)`. -/
def searchRevenue (line : List Char) : Option (Nat × Nat) :=
  searchLabelAux matchRevenueHere (line.length + 1) none line 0

/-- `_COS_LABEL_RE.search(line)`. -/
def searchCos (line : List Char) : Option (Nat × Nat) :=
  searchLabelAux matchCosHere (line.length + 1) none line 0

/-! ## Search strategy -/

/-- The same-line keep test of `_best_number_after_label`
(parsing.py lines 92-96): money-like (has `$`, or ≥ 4 digits after the
paren-stripping normalization) and not a year. -/
def sameLineKeep (t : List Char) : Bool :=
  let norm := stripReplaceParens t
  (t.contains '$' || (norm.all isDigitC && decide (4 ≤ norm.length)))
    && !looksLikeYear t

/-- `_best_number_after_label` (parsing.py lines 79-101); `matchEnd` is
`label_match.end()`. -/
def bestNumberAfterLabel (line : List Char) (matchEnd : Nat) : Option (List Char) :=
  let raw := numberTokensFrom line matchEnd
  if raw.isEmpty then none
  else
    let candidates := raw.filter sameLineKeep
    if candidates.isEmpty then none
    else pickBest candidates

/-- The lookahead keep test of `_best_number_in_next_lines`
(parsing.py lines 136-139): ≥ 4 digits after the paren-stripping
normalization and not a year. -/
def lookKeep (t : List Char) : Bool :=
  let norm := stripReplaceParens t
  norm.all isDigitC && decide (4 ≤ norm.length) && !looksLikeYear t

/-- The `for j in range(1, window + 1)` loop of
`_best_number_in_next_lines` (parsing.py lines 117-144), recursing on
the remaining window size with `i` the absolute index of the line under
examination. -/
def lookLines (lines : List (List Char)) : Nat → Nat → Option (List Char)
  | _, 0 => none
  | i, rem + 1 =>
    match lines.get? i with
    | none => none
    | some ln =>
      let line := pyStrip ln
      if line.isEmpty then lookLines lines (i + 1) rem
      else
        let raws := numberTokensFrom line 0
        if raws.isEmpty then lookLines lines (i + 1) rem
        else
          let dollars := raws.filter (fun t => t.contains '$')
          if !dollars.isEmpty then pickLeftmost dollars
          else
            let longs := raws.filter lookKeep
            if !longs.isEmpty then pickLeftmost longs
            else lookLines lines (i + 1) rem

/-- `_best_number_in_next_lines(lines, start_idx, window)`
(parsing.py lines 108-144). -/
def bestNumberInNextLines (lines : List (List Char)) (startIdx window : Nat) :
    Option (List Char) :=
  lookLines lines (startIdx + 1) window

/-- The shared per-label resolution block of `extract_values_from_pdf`
(parsing.py lines 168-172 and 177-181): same-line first, falling back to
the lookahead when the same-line result is falsy, then normalizing a
truthy result. -/
def resolveLabel (lines : List (List Char)) (i : Nat) (line : List Char)
    (matchEnd window : Nat) : Option (List Char) :=
  let v0 := bestNumberAfterLabel line matchEnd
  let v := if v0 = none ∨ v0 = some [] then bestNumberInNextLines lines i window
           else v0
  match v with
  | some tok => if tok.isEmpty then none else some (normalizeValue tok)
  | none => none

/-- The `while i < len(lines) and (revenue is None or cos is None)` loop
of `extract_values_from_pdf` (parsing.py lines 161-183).  The window is
10 for Revenue and 12 for Cost of Sales, as in the source. -/
def extractLoop (lines : List (List Char)) :
    Nat → Nat → Option (List Char) → Option (List Char) →
    Option (List Char) × Option (List Char)
  | 0, _, r, c => (r, c)
  | fuel + 1, i, r, c =>
    if i < lines.length ∧ (r = none ∨ c = none) then
      let line := lines.getD i []
      let r' := match r with
        | some v => some v
        | none =>
          match searchRevenue line with
          | some m => resolveLabel lines i line m.2 10
          | none => none
      let c' := match c with
        | some v => some v
        | none =>
          match searchCos line with
          | some m => resolveLabel lines i line m.2 12
          | none => none
      extractLoop lines fuel (i + 1) r' c'
    else (r, c)

/-- `extract_values_from_pdf` after the external text extraction: the
document is the list of lines of the extracted text, each stripped at
creation (parsing.py lines 155-185).  Conversion of PDF bytes to text
(pdfminer) is the out-of-scope external collaborator. -/
def extractFromLines (lines0 : List (List Char)) :
    Option (List Char) × Option (List Char) :=
  let lines := lines0.map pyStrip
  extractLoop lines lines.length 0 none none

/-! ## Arithmetic engine -/

/-- The two `ValueError` kinds of `compute_gross_profit` (parsing.py
lines 195-202): the `ValueError` for a missing input and the
`ValueError` re-raised from the `InvalidOperation` of a failed
`Decimal` construction. -/
inductive GpError where
  | missingInput : GpError
  | invalidNumber : GpError
deriving DecidableEq

/-- Result of `compute_gross_profit`: a returned string, a typed
`ValueError`, or `raised` for an exception that escapes untyped — the
`try` block covers only the two `Decimal` constructions, so a trapped
signal raised by `rev - cos` or `gp.normalize()` (`InvalidOperation`
on a signaling NaN or on same-signed `Infinity - Infinity`, `Overflow`
past the context's exponent range) propagates out of the function. -/
inductive GpResult where
  | ok : List Char → GpResult
  | error : GpError → GpResult
  | raised : GpResult
deriving DecidableEq

/-! ## `decimal.Decimal` model

A `Decimal` value is modelled exactly: a finite number is an
integer-scaled pair `(m, e)` denoting `m * 10 ^ e` (never binary
floating point), and the special values — `Infinity`, quiet and
signaling `NaN` with their sign and integer diagnostic payload — are
separate constructors.  The sign of a zero is not tracked: it never
reaches the output of `compute_gross_profit`, whose final step maps
the `-0` forms to `0`.  Arithmetic runs under Python's default
context: precision 28, `ROUND_HALF_EVEN`, `Emax = 999999`,
`Emin = -999999`, with `InvalidOperation` and `Overflow` trapped
(raising) and `Underflow` untrapped (rounding at `Etiny`). -/

/-- A `decimal.Decimal` value. -/
inductive PyDec where
  | fin : Int → Int → PyDec
  | inf : Bool → PyDec
  | qnan : Bool → Nat → PyDec
  | snan : Bool → Nat → PyDec
deriving DecidableEq

/-- Precision of Python's default decimal context (`getcontext().prec`). -/
def precC : Nat := 28

/-- `getcontext().Emax`: maximal adjusted exponent of a result. -/
def emaxC : Int := 999999

/-- `getcontext().Emin`: minimal adjusted exponent of a normal result. -/
def eminC : Int := -999999

/-- `Etiny = Emin - prec + 1`: the minimum exponent of any result. -/
def etinyC : Int := eminC - (precC : Int) + 1

/-- `decimal.Decimal` string-conversion grammar, exponent suffix:
`[eE] [sign] digits` ending the string.  A parsed finite value
`(m, e)` denotes `m * 10 ^ e`. -/
def parseExpPart (m : Nat) (e : Int) (l : List Char) : Option (Int × Int) :=
  match l with
  | [] => some ((m : Int), e)
  | c :: rest =>
    if c = 'e' ∨ c = 'E' then
      let se : Int × List Char :=
        if rest.head? = some '+' then (1, rest.tail)
        else if rest.head? = some '-' then (-1, rest.tail)
        else (1, rest)
      let ds := se.2.takeWhile isDigitC
      if ds.isEmpty || !(se.2.dropWhile isDigitC).isEmpty then none
      else some ((m : Int), e + se.1 * (digitsVal ds : Int))
    else none

/-- Unsigned part of the `Decimal` grammar: `digits [. digits] [exp]`
with at least one digit present. -/
def parseUnsignedDec (l : List Char) : Option (Int × Int) :=
  let ip := l.takeWhile isDigitC
  let r1 := l.dropWhile isDigitC
  if r1.head? = some '.' then
    let fp := r1.tail.takeWhile isDigitC
    let r3 := r1.tail.dropWhile isDigitC
    if ip.isEmpty && fp.isEmpty then none
    else parseExpPart (digitsVal (ip ++ fp)) (-(fp.length : Int)) r3
  else
    if ip.isEmpty then none else parseExpPart (digitsVal ip) 0 r1

/-- The signed finite-number part of `Decimal(s)` string conversion:
leading and trailing whitespace is stripped and every underscore
removed (as the constructor does), then an optional sign and the
numeric grammar `digits [. digits] [exp]` / `. digits [exp]`. -/
def parseNum (l : List Char) : Option (Int × Int) :=
  let s := removeChar '_' (pyStrip l)
  if s.head? = some '-' then (parseUnsignedDec s.tail).map (fun p => (-p.1, p.2))
  else if s.head? = some '+' then parseUnsignedDec s.tail
  else parseUnsignedDec s

/-- The special-value part of `Decimal(s)`: after the same whitespace
strip, underscore removal and optional sign, a case-insensitive
`Inf`/`Infinity`, `NaN [digits]` or `sNaN [digits]` — the diagnostic
digits are read as an integer, so leading zeros are dropped and a `0`
payload is the plain `NaN`. -/
def parseSpecial (l : List Char) : Option PyDec :=
  let s := removeChar '_' (pyStrip l)
  let neg : Bool := decide (s.head? = some '-')
  let u := if s.head? = some '-' ∨ s.head? = some '+' then s.tail else s
  let t := u.map lc
  if t = ['i', 'n', 'f'] ∨ t = ['i', 'n', 'f', 'i', 'n', 'i', 't', 'y'] then
    some (.inf neg)
  else if t.take 3 = ['n', 'a', 'n'] ∧ (t.drop 3).all isDigitC then
    some (.qnan neg (digitsVal (t.drop 3)))
  else if t.take 4 = ['s', 'n', 'a', 'n'] ∧ (t.drop 4).all isDigitC then
    some (.snan neg (digitsVal (t.drop 4)))
  else none

/-- `decimal.Decimal(s)` string construction: the finite grammar when
it applies, else a special value; `none` is the `InvalidOperation` the
constructor raises on a malformed string. -/
def parseDecimal (l : List Char) : Option PyDec :=
  match parseNum l with
  | some p => some (.fin p.1 p.2)
  | none => parseSpecial l

/-- The exact difference of two finite decimals, as an integer
coefficient at the ideal exponent `min a.2 b.2`. -/
def alignedDiff (a b : Int × Int) : Int :=
  let e := min a.2 b.2
  a.1 * 10 ^ (a.2 - e).toNat - b.1 * 10 ^ (b.2 - e).toNat

/-- The trailing-zero-stripping loop of `Decimal.normalize`. -/
def normLoop : Nat → Int → Int → Int × Int
  | 0, m, e => (m, e)
  | fuel + 1, m, e =>
    if m ≠ 0 ∧ m % 10 = 0 then normLoop fuel (m / 10) (e + 1) else (m, e)

/-- Decimal digit character of `r < 10`. -/
def digitChar (r : Nat) : Char :=
  match r with
  | 0 => '0' | 1 => '1' | 2 => '2' | 3 => '3' | 4 => '4'
  | 5 => '5' | 6 => '6' | 7 => '7' | 8 => '8' | _ => '9'

/-- Digit string of a natural number (helper, fuel-driven). -/
def natDigitsAux : Nat → Nat → List Char
  | 0, _ => []
  | fuel + 1, n =>
    if n = 0 then [] else natDigitsAux fuel (n / 10) ++ [digitChar (n % 10)]

/-- Decimal digit string of a natural number; `"0"` for zero. -/
def natDigits (n : Nat) : List Char :=
  if n = 0 then ['0'] else natDigitsAux (n + 1) n

/-- Number of decimal digits of `n` (1 for `0`). -/
def numDigits (n : Nat) : Nat :=
  (natDigits n).length

/-- Round half-even: drop the last `k` digits of `c`, rounding to the
nearest value and to the even neighbour on an exact tie. -/
def roundHalfEven (c k : Nat) : Nat :=
  let p := 10 ^ k
  let q := c / p
  let r := c % p
  if p < 2 * r ∨ (2 * r = p ∧ q % 2 = 1) then q + 1 else q

/-- Fit a coefficient `c` at ideal exponent `e0` into the context (the
rounding every arithmetic result undergoes): an exact zero keeps the
ideal exponent clamped into `[Etiny, Emax]`; otherwise the digits
beyond the precision, and the digits below `Etiny`, are rounded away
half-even (a carry that lengthens the coefficient past the precision
folds into the exponent); a nonzero result whose adjusted exponent
exceeds `Emax` overflows — `none`, the trapped `Overflow` signal. -/
def decFix (c e0 : Int) : Option (Int × Int) :=
  if c = 0 then some (0, min emaxC (max etinyC e0))
  else
    let d : Int := (numDigits c.natAbs : Int)
    let drop : Int := max (d - (precC : Int)) (etinyC - e0)
    if drop ≤ 0 then
      if emaxC < e0 + d - 1 then none else some (c, e0)
    else
      let q0 := roundHalfEven c.natAbs drop.toNat
      if q0 = 0 then some (0, etinyC)
      else
        let qe : Nat × Int :=
          if 10 ^ precC ≤ q0 then (q0 / 10, e0 + drop + 1) else (q0, e0 + drop)
        if emaxC < qe.2 + (numDigits qe.1 : Int) - 1 then none
        else some (if c < 0 then -(qe.1 : Int) else (qe.1 : Int), qe.2)

/-- Finite `Decimal` subtraction `a - b` under the default context:
the exact aligned difference, rounded into the context; `none` is the
trapped `Overflow`. -/
def decSub (a b : Int × Int) : Option (Int × Int) :=
  decFix (alignedDiff a b) (min a.2 b.2)

/-- The finite case of `Decimal.normalize()`: round the operand into
the context like any arithmetic result (so a value past the exponent
range overflows), then strip trailing zeros from the mantissa; a zero
ends at exponent 0. -/
def decNormalize (x : Int × Int) : Option (Int × Int) :=
  match decFix x.1 x.2 with
  | none => none
  | some y => if y.1 = 0 then some (0, 0) else some (normLoop y.1.natAbs y.1 y.2)

/-- `Decimal.__sub__` on the model: a signaling NaN raises — the
trapped `InvalidOperation`, `none`; a quiet NaN propagates (the left
operand's NaN first), its payload reduced modulo `10 ^ prec` as the
context does; `Infinity - Infinity` of equal signs raises; an infinity
dominates a finite operand (negated on the right); finite operands
subtract exactly and round into the context. -/
def pyDecSub (a b : PyDec) : Option PyDec :=
  match a, b with
  | .snan _ _, _ => none
  | _, .snan _ _ => none
  | .qnan s p, _ => some (.qnan s (p % 10 ^ precC))
  | _, .qnan s p => some (.qnan s (p % 10 ^ precC))
  | .inf sa, .inf sb => if sa = sb then none else some (.inf sa)
  | .inf sa, .fin _ _ => some (.inf sa)
  | .fin _ _, .inf sb => some (.inf (!sb))
  | .fin m1 e1, .fin m2 e2 =>
    (decSub (m1, e1) (m2, e2)).map (fun p => .fin p.1 p.2)

/-- `Decimal.normalize()`: a signaling NaN raises, a quiet NaN (payload
reduced modulo `10 ^ prec`) and an infinity pass through, a finite
value is rounded into the context and stripped of trailing zeros. -/
def pyDecReduce (g : PyDec) : Option PyDec :=
  match g with
  | .snan _ _ => none
  | .qnan s p => some (.qnan s (p % 10 ^ precC))
  | .inf s => some (.inf s)
  | .fin m e => (decNormalize (m, e)).map (fun p => .fin p.1 p.2)

/-- `format(d, 'f')` for a finite `Decimal` `(m, e)`: plain decimal
notation, never scientific. -/
def formatF (d : Int × Int) : List Char :=
  let sign : List Char := if d.1 < 0 then ['-'] else []
  let a := d.1.natAbs
  if 0 ≤ d.2 then sign ++ natDigits a ++ List.replicate d.2.toNat '0'
  else
    let k := (-d.2).toNat
    let ds0 := natDigits a
    let ds := if ds0.length ≤ k then List.replicate (k + 1 - ds0.length) '0' ++ ds0
              else ds0
    sign ++ ds.take (ds.length - k) ++ '.' :: ds.drop (ds.length - k)

/-- Python `str.rstrip(c)`: remove every trailing occurrence of `c`. -/
def rstripChar (c : Char) (l : List Char) : List Char :=
  (l.reverse.dropWhile (fun x => x == c)).reverse

/-- `if '.' in s: s = s.rstrip('0').rstrip('.')`
(parsing.py lines 206-207). -/
def stripTrailingZeros (s : List Char) : List Char :=
  if s.contains '.' then rstripChar '.' (rstripChar '0' s) else s

/-- `format(g, 'f')` on an arbitrary `Decimal`: plain decimal notation
for a finite value; `[-]Infinity`, `[-]NaN[payload]`, `[-]sNaN[payload]`
for the specials (a `0` payload prints no digits). -/
def formatFDec (g : PyDec) : List Char :=
  match g with
  | .fin m e => formatF (m, e)
  | .inf s => (if s then ['-'] else []) ++ ['I', 'n', 'f', 'i', 'n', 'i', 't', 'y']
  | .qnan s p => (if s then ['-'] else []) ++ ['N', 'a', 'N']
      ++ (if p = 0 then [] else natDigits p)
  | .snan s p => (if s then ['-'] else []) ++ ['s', 'N', 'a', 'N']
      ++ (if p = 0 then [] else natDigits p)

/-- The formatting tail of `compute_gross_profit` (parsing.py lines
205-210), applied to the already-normalized value: `format(·, 'f')`,
strip trailing fractional zeros and a bare point, map the
negative-zero forms to `0`. -/
def formatGp (g : PyDec) : List Char :=
  let s := stripTrailingZeros (formatFDec g)
  if s = ['-', '0'] ∨ s = ['-', '0', '.', '0'] ∨ s = ['0', '.', '0'] then ['0']
  else s

/-- `compute_gross_profit` (parsing.py lines 188-210) as a typed
result: the `None` check raises the missing-input `ValueError`; the
`try` covers only the two `Decimal` constructions, whose
`InvalidOperation` becomes the invalid-number `ValueError`;
`rev - cos` and `gp.normalize()` run outside it, so a signal they
raise escapes untyped (`raised`). -/
def computeGrossProfit (r c : Option (List Char)) : GpResult :=
  match r, c with
  | none, _ => .error .missingInput
  | some _, none => .error .missingInput
  | some rs, some cs =>
    match parseDecimal rs, parseDecimal cs with
    | some a, some b =>
      match pyDecSub a b with
      | none => .raised
      | some gp =>
        match pyDecReduce gp with
        | none => .raised
        | some n => .ok (formatGp n)
    | _, _ => .error .invalidNumber

/-- Rational value denoted by a parsed decimal `(m, e)`. -/
def decValue (d : Int × Int) : ℚ :=
  (d.1 : ℚ) * 10 ^ d.2

/-! ## Specification-side definitions (for refinement statements) -/

/-- Modelled from the spec (§4.5 step 2), for comparison with the
implementation: the per-line selection rule of the lookahead — on a
(stripped) line, the leftmost token containing a currency symbol if one
exists, otherwise the leftmost token with ≥ 4 normalized digits that is
not year-like if one exists, otherwise nothing (a blank line yields no
tokens and hence nothing, i.e. is skipped). -/
def specLineChoice (ln : List Char) : Option (List Char) :=
  let toks := numberTokensFrom (pyStrip ln) 0
  match toks.find? (fun t => t.contains '$') with
  | some t => some t
  | none => toks.find? lookKeep

/-- Modelled from the spec (§4.5 steps 2-3), for comparison with the
implementation: scan forward a bounded window of `window` lines after
line `startIdx`, taking the first line that yields a selection; an
exhausted window yields `none` (the `Absent` outcome), never an error. -/
def lookaheadSpec (lines : List (List Char)) (startIdx window : Nat) :
    Option (List Char) :=
  ((lines.drop (startIdx + 1)).take window).findSome? specLineChoice

/-- The leading digit group of a token: its first maximal digit run. -/
def firstDigitRun (t : List Char) : List Char :=
  (t.dropWhile (fun c => !isDigitC c)).takeWhile isDigitC

/-! # Theorems

General list lemmas and facts about the embedded functions first, then
one theorem per claim, each with its witness or counterexample where
applicable. -/

theorem mem_of_mem_dropWhile {α : Type} {p : α → Bool} {l : List α} {a : α}
    (h : a ∈ l.dropWhile p) : a ∈ l := by
  induction l with
  | nil => simp at h
  | cons x t ih =>
    rw [List.dropWhile_cons] at h
    split at h
    · exact List.mem_cons_of_mem x (ih h)
    · exact h

theorem mem_of_mem_takeWhile {α : Type} {p : α → Bool} {l : List α} {a : α}
    (h : a ∈ l.takeWhile p) : a ∈ l ∧ p a = true := by
  induction l with
  | nil => simp at h
  | cons x t ih =>
    rw [List.takeWhile_cons] at h
    split at h
    · rcases List.mem_cons.mp h with rfl | h2
      · exact ⟨List.mem_cons_self _ _, by assumption⟩
      · exact ⟨List.mem_cons_of_mem x (ih h2).1, (ih h2).2⟩
    · simp at h

theorem mem_removeChar {a c : Char} {l : List Char} (h : a ∈ removeChar c l) :
    a ∈ l ∧ a ≠ c := by
  unfold removeChar at h
  rw [List.mem_filter] at h
  exact ⟨h.1, by simpa using h.2⟩

theorem mem_pyStrip {a : Char} {l : List Char} (h : a ∈ pyStrip l) : a ∈ l := by
  unfold pyStrip dropTrailWs at h
  rw [List.mem_reverse] at h
  have h1 := mem_of_mem_dropWhile h
  rw [List.mem_reverse] at h1
  exact mem_of_mem_dropWhile h1

theorem mem_stripReplace {a : Char} {l : List Char} (h : a ∈ stripReplace l) :
    a ∈ l ∧ a ≠ '$' ∧ a ≠ ',' ∧ a ≠ ' ' ∧ a ≠ '.' := by
  unfold stripReplace at h
  obtain ⟨h, hdot⟩ := mem_removeChar h
  obtain ⟨h, hsp⟩ := mem_removeChar h
  obtain ⟨h, hcom⟩ := mem_removeChar h
  obtain ⟨h, hdol⟩ := mem_removeChar h
  exact ⟨mem_pyStrip h, hdol, hcom, hsp, hdot⟩

theorem mem_normalizeValue {a : Char} {l : List Char}
    (h : a ∈ normalizeValue l) : a = '-' ∨ a ∈ stripReplace l := by
  simp only [normalizeValue] at h
  split at h
  · rcases List.mem_cons.mp h with rfl | h2
    · exact Or.inl rfl
    · exact Or.inr (List.drop_subset _ _ (List.dropLast_subset _ h2))
  · exact Or.inr h

theorem dropWhile_eq_self_of_none {p : Char → Bool} {l : List Char}
    (h : ∀ c ∈ l, p c = false) : l.dropWhile p = l := by
  cases l with
  | nil => rfl
  | cons x t =>
    rw [List.dropWhile_cons, h x (List.mem_cons_self x t)]
    simp

theorem pyStrip_eq_self {l : List Char} (h : ∀ c ∈ l, isWs c = false) :
    pyStrip l = l := by
  unfold pyStrip dropTrailWs
  rw [dropWhile_eq_self_of_none h,
      dropWhile_eq_self_of_none (fun c hc => h c (List.mem_reverse.mp hc)),
      List.reverse_reverse]

theorem removeChar_eq_self {c : Char} {l : List Char} (h : c ∉ l) :
    removeChar c l = l := by
  unfold removeChar
  rw [List.filter_eq_self]
  intro a ha
  simp only [bne_iff_ne, ne_eq]
  rintro rfl
  exact h ha

theorem stripReplace_eq_self {l : List Char}
    (hw : ∀ c ∈ l, isWs c = false)
    (h1 : '$' ∉ l) (h2 : ',' ∉ l) (h3 : ' ' ∉ l) (h4 : '.' ∉ l) :
    stripReplace l = l := by
  unfold stripReplace
  rw [pyStrip_eq_self hw, removeChar_eq_self h1, removeChar_eq_self h2,
      removeChar_eq_self h3, removeChar_eq_self h4]

theorem normalizeValue_of_clean {l : List Char}
    (hsr : stripReplace l = l)
    (hpar : ¬(l.head? = some '(' ∧ l.getLast? = some ')')) :
    normalizeValue l = l := by
  unfold normalizeValue
  rw [hsr, if_neg hpar]

/-- C3 counterexample: `0.0` and `12)` are tokens matched by the
tokenizer's grammar, yet `_normalize_value` sends `0.0` to `00` (not to
the canonical `0`) and leaves the unmatched parenthesis of `12)` in
place, so the output is not always a canonical decimal string. -/
theorem C3_counterexample :
    numberTokensFrom ("0.0".data) 0 = ["0.0".data]
    ∧ normalizeValue ("0.0".data) = "00".data
    ∧ "00".data ≠ "0".data
    ∧ numberTokensFrom ("x12)".data) 0 = ["12)".data]
    ∧ normalizeValue ("12)".data) = "12)".data
    ∧ ')' ∈ normalizeValue ("12)".data) := by decide

/-- C3 (amended): for every input — in particular every raw token matched
by the tokenizer's grammar — the Normalizer's output contains no currency
symbol, no comma, no space and no period (all four are removed outright,
a period is removed rather than kept as a decimal point); an outer
parenthesis pair becomes a leading `-`.  Unbalanced parentheses are kept
verbatim, and the forms `-0`, `-0.0`, `0.0` are not reduced to `0` by the
Normalizer (that mapping happens only in the arithmetic engine's output
formatting). -/
theorem C3_normalizer_removes_separators (t : List Char) :
    '$' ∉ normalizeValue t ∧ ',' ∉ normalizeValue t
    ∧ ' ' ∉ normalizeValue t ∧ '.' ∉ normalizeValue t := by
  have key : ∀ c : Char, c ≠ '-' →
      (c = '$' ∨ c = ',' ∨ c = ' ' ∨ c = '.') → c ∉ normalizeValue t := by
    intro c hc hor h
    rcases mem_normalizeValue h with h2 | h2
    · exact hc h2
    · obtain ⟨_, d1, d2, d3, d4⟩ := mem_stripReplace h2
      rcases hor with rfl | rfl | rfl | rfl
      · exact d1 rfl
      · exact d2 rfl
      · exact d3 rfl
      · exact d4 rfl
  exact ⟨key '$' (by decide) (Or.inl rfl),
         key ',' (by decide) (Or.inr (Or.inl rfl)),
         key ' ' (by decide) (Or.inr (Or.inr (Or.inl rfl))),
         key '.' (by decide) (Or.inr (Or.inr (Or.inr rfl)))⟩

/-- C9 counterexample: the Normalizer is not idempotent on every input:
on `"$\t1"` (a grammar token shape: `$`, tab, digit) the first pass
yields `"\t1"` — removing the `$` exposes a leading tab, which only the
second pass strips — so `normalize (normalize s) ≠ normalize s`. -/
theorem C9_counterexample :
    normalizeValue ("$\t1".data) = "\t1".data
    ∧ normalizeValue ("\t1".data) = "1".data
    ∧ normalizeValue (normalizeValue ("$\t1".data)) ≠ normalizeValue ("$\t1".data) := by
  decide

/-- C9 (amended): the Normalizer is idempotent on every string whose
whitespace characters are all plain spaces (tabs and other whitespace
are neither removed by the replacement step nor, when interior, by the
strip, so only exotic whitespace breaks idempotence):
`normalize (normalize s) = normalize s` for such `s`. -/
theorem C9_normalize_idempotent_space_only (s : List Char)
    (h : ∀ c ∈ s, isWs c = true → c = ' ') :
    normalizeValue (normalizeValue s) = normalizeValue s := by
  have hmem : ∀ c ∈ normalizeValue s,
      isWs c = false ∧ c ≠ '$' ∧ c ≠ ',' ∧ c ≠ ' ' ∧ c ≠ '.' := by
    intro c hc
    rcases mem_normalizeValue hc with rfl | hsr
    · exact ⟨by decide, by decide, by decide, by decide, by decide⟩
    · obtain ⟨hs, d1, d2, d3, d4⟩ := mem_stripReplace hsr
      refine ⟨?_, d1, d2, d3, d4⟩
      by_cases hw : isWs c = true
      · exact absurd (h c hs hw) d3
      · simpa using hw
  have hfix : stripReplace (normalizeValue s) = normalizeValue s :=
    stripReplace_eq_self (fun c hc => (hmem c hc).1)
      (fun hc => (hmem _ hc).2.1 rfl) (fun hc => (hmem _ hc).2.2.1 rfl)
      (fun hc => (hmem _ hc).2.2.2.1 rfl) (fun hc => (hmem _ hc).2.2.2.2 rfl)
  apply normalizeValue_of_clean hfix
  by_cases hc : (stripReplace s).head? = some '(' ∧ (stripReplace s).getLast? = some ')'
  · have ho : normalizeValue s = '-' :: ((stripReplace s).drop 1).dropLast := by
      unfold normalizeValue
      rw [if_pos hc]
    rw [ho]
    rintro ⟨h1, _⟩
    simp at h1
  · have ho : normalizeValue s = stripReplace s := by
      unfold normalizeValue
      rw [if_neg hc]
    rw [ho]
    exact hc

/-- C9 witness: idempotence at a typical token with spaces only. -/
theorem C9_witness :
    normalizeValue (normalizeValue (" $1,234 ".data)) = normalizeValue (" $1,234 ".data) :=
  C9_normalize_idempotent_space_only _ (by decide)

/-- C2 counterexample: on the line `Revenue $2,023` the label matches
with span (0, 7) and the only token after it, `" $2,023"`, carries a
currency symbol and normalizes to the four digits `2023` (a year-range
value).  The claim says such a currency-marked token stays a qualifying
candidate, but `_looks_like_year` ignores currency marking, so the
same-line filter rejects it and the same-line search yields nothing. -/
theorem C2_counterexample :
    searchRevenue ("Revenue $2,023".data) = some (0, 7)
    ∧ numberTokensFrom ("Revenue $2,023".data) 7 = [" $2,023".data]
    ∧ (" $2,023".data).contains '$' = true
    ∧ stripReplace (" $2,023".data) = "2023".data
    ∧ looksLikeYear (" $2,023".data) = true
    ∧ sameLineKeep (" $2,023".data) = false
    ∧ bestNumberAfterLabel ("Revenue $2,023".data) 7 = none := by decide

/-- C2 (amended): in the same-line candidate filter, year-exclusion
applies to every token regardless of currency marking: any token whose
normalized form is exactly 4 digits with value in [1900, 2100] is
rejected even when it carries a currency symbol (only the scorer, not
this filter, restricts the year penalty to non-currency tokens). -/
theorem C2_year_exclusion_unconditional (t : List Char)
    (h : looksLikeYear t = true) : sameLineKeep t = false := by
  unfold sameLineKeep
  rw [h]
  simp

/-- C2 witness: the amended rule applied to the currency-marked year
token `" $2,023"`. -/
theorem C2_witness : sameLineKeep (" $2,023".data) = false :=
  C2_year_exclusion_unconditional _ (by decide)

theorem computeGrossProfit_parsed {rs cs : List Char} {a b : PyDec}
    (ha : parseDecimal rs = some a) (hb : parseDecimal cs = some b) :
    computeGrossProfit (some rs) (some cs)
      = match pyDecSub a b with
        | none => .raised
        | some gp =>
          match pyDecReduce gp with
          | none => .raised
          | some n => .ok (formatGp n) := by
  show (match parseDecimal rs, parseDecimal cs with
        | some a, some b =>
          match pyDecSub a b with
          | none => GpResult.raised
          | some gp =>
            match pyDecReduce gp with
            | none => GpResult.raised
            | some n => GpResult.ok (formatGp n)
        | _, _ => GpResult.error GpError.invalidNumber) = _
  rw [ha, hb]

/-- C5 counterexample: the taxonomy of the claim is not that of the
code.  `Decimal("nan")` parses (it is not an invalid-number failure,
although `nan` is no exact decimal number), and
`compute_gross_profit("nan", "5")` returns the string `NaN`; and on
`("inf", "inf")` the subtraction raises an untyped `InvalidOperation`
outside the `try` block, so the call neither returns a value nor fails
with one of the two typed errors. -/
theorem C5_counterexample :
    computeGrossProfit (some ("nan".data)) (some ("5".data)) = .ok ("NaN".data)
    ∧ computeGrossProfit (some ("nan".data)) (some ("5".data))
        ≠ .error .invalidNumber
    ∧ computeGrossProfit (some ("inf".data)) (some ("inf".data)) = .raised
    ∧ GpResult.raised ≠ .error .missingInput
    ∧ GpResult.raised ≠ .error .invalidNumber
    ∧ ∀ g : List Char, GpResult.raised ≠ .ok g := by
  refine ⟨by decide, by decide, by decide, by decide, by decide, ?_⟩
  intro g h
  exact GpResult.noConfusion h

/-- C5 (amended): `compute_gross_profit` fails with the missing-input
error when either argument is absent, and fails with the invalid-number
error exactly when both are present and at least one fails `Decimal`
string conversion — a conversion that also accepts the non-finite forms
`NaN` and `Infinity`, which therefore do not fail.  When both arguments
convert, the call either returns a value string or lets an untyped
arithmetic signal escape (`raised`), never a typed error: `("nan","5")`
returns `NaN`, `("inf","5")` returns `Infinity`, while `("inf","inf")`
and the overflowing `("5e999999","-5e999999")` raise.  In particular
`(Absent, "10")` is the missing-input failure and `("10x", "5")` the
invalid-number failure. -/
theorem C5_gross_profit_errors :
    (∀ c, computeGrossProfit none c = .error .missingInput)
    ∧ (∀ r, computeGrossProfit r none = .error .missingInput)
    ∧ (∀ rs cs, parseDecimal rs = none ∨ parseDecimal cs = none →
        computeGrossProfit (some rs) (some cs) = .error .invalidNumber)
    ∧ (∀ rs cs a b, parseDecimal rs = some a → parseDecimal cs = some b →
        (∃ g, computeGrossProfit (some rs) (some cs) = .ok g)
        ∨ computeGrossProfit (some rs) (some cs) = .raised)
    ∧ computeGrossProfit none (some ("10".data)) = .error .missingInput
    ∧ computeGrossProfit (some ("10x".data)) (some ("5".data)) = .error .invalidNumber
    ∧ computeGrossProfit (some ("nan".data)) (some ("5".data)) = .ok ("NaN".data)
    ∧ computeGrossProfit (some ("inf".data)) (some ("5".data))
        = .ok ("Infinity".data)
    ∧ computeGrossProfit (some ("inf".data)) (some ("inf".data)) = .raised
    ∧ computeGrossProfit (some ("5e999999".data)) (some ("-5e999999".data))
        = .raised := by
  refine ⟨fun c => rfl, ?_, ?_, ?_, rfl, by decide, by decide, by decide,
    by decide, by decide⟩
  · intro r
    cases r <;> rfl
  · intro rs cs h
    show (match parseDecimal rs, parseDecimal cs with
          | some a, some b =>
            match pyDecSub a b with
            | none => GpResult.raised
            | some gp =>
              match pyDecReduce gp with
              | none => GpResult.raised
              | some n => GpResult.ok (formatGp n)
          | _, _ => GpResult.error GpError.invalidNumber) = _
    rcases h with h | h
    · rw [h]
    · rw [h]
      cases parseDecimal rs <;> rfl
  · intro rs cs a b ha hb
    rw [computeGrossProfit_parsed ha hb]
    cases hs : pyDecSub a b with
    | none => exact Or.inr rfl
    | some gp =>
      show (∃ g, (match pyDecReduce gp with
            | none => GpResult.raised
            | some n => GpResult.ok (formatGp n)) = GpResult.ok g)
          ∨ (match pyDecReduce gp with
            | none => GpResult.raised
            | some n => GpResult.ok (formatGp n)) = GpResult.raised
      cases hn : pyDecReduce gp with
      | none => exact Or.inr rfl
      | some n => exact Or.inl ⟨formatGp n, rfl⟩

/-- C5 witness: the invalid-number case applied at `("10x", "5")`. -/
theorem C5_witness :
    computeGrossProfit (some ("10x".data)) (some ("5".data)) = .error .invalidNumber :=
  C5_gross_profit_errors.2.2.1 _ _ (Or.inl (by decide))

theorem moneyLikeTokens_subset {t : List Char} {l : List (List Char)}
    (h : t ∈ moneyLikeTokens l) : t ∈ l := by
  simp only [moneyLikeTokens] at h
  split at h
  · exact h
  · exact (List.mem_filter.mp h).1

theorem pickBest_mem {l : List (List Char)} {t : List Char}
    (h : pickBest l = some t) : t ∈ l := by
  simp only [pickBest] at h
  split at h
  · simp at h
  · exact moneyLikeTokens_subset (List.get?_mem h)

/-- C7: in the same-line case, when no token after the label match passes
the money-like-and-not-a-year filter, `_best_number_after_label` returns
nothing (forcing the lookahead fallback); and whenever it does return a
token, that token passes the filter — it never selects a non-qualifying
token from the line. -/
theorem C7_same_line_no_fallback (line : List Char) (matchEnd : Nat) :
    ((numberTokensFrom line matchEnd).filter sameLineKeep = [] →
      bestNumberAfterLabel line matchEnd = none)
    ∧ (∀ t, bestNumberAfterLabel line matchEnd = some t → sameLineKeep t = true) := by
  constructor
  · intro hf
    simp [bestNumberAfterLabel, hf]
  · intro t ht
    simp only [bestNumberAfterLabel] at ht
    split at ht
    · simp at ht
    · split at ht
      · simp at ht
      · exact (List.mem_filter.mp (pickBest_mem ht)).2

/-- C7 witness: on `Revenue 2023` the tokens after the label are `" 202"`
and `"3"`, neither qualifies, and the same-line search yields nothing. -/
theorem C7_witness : bestNumberAfterLabel ("Revenue 2023".data) 7 = none :=
  (C7_same_line_no_fallback ("Revenue 2023".data) 7).1 (by decide)

/-- C8: during a single document pass, a label outcome already set is
never overwritten by any later iteration of the scan loop, and the loop
returns immediately — even with lines left — once both labels carry a
value. -/
theorem C8_resolution_monotonic (lines : List (List Char)) :
    ∀ (fuel i : Nat) (r c : Option (List Char)),
      (r ≠ none → (extractLoop lines fuel i r c).1 = r)
      ∧ (c ≠ none → (extractLoop lines fuel i r c).2 = c)
      ∧ (r ≠ none → c ≠ none → extractLoop lines fuel i r c = (r, c)) := by
  intro fuel
  induction fuel with
  | zero => exact fun i r c => ⟨fun _ => rfl, fun _ => rfl, fun _ _ => rfl⟩
  | succ n ih =>
    intro i r c
    refine ⟨?_, ?_, ?_⟩
    · intro hr
      obtain ⟨v, rfl⟩ : ∃ v, r = some v := by
        cases r
        · exact absurd rfl hr
        · exact ⟨_, rfl⟩
      show (extractLoop lines (n + 1) i (some v) c).1 = some v
      unfold extractLoop
      split
      · exact (ih (i + 1) (some v) _).1 (by simp)
      · rfl
    · intro hc
      obtain ⟨w, rfl⟩ : ∃ w, c = some w := by
        cases c
        · exact absurd rfl hc
        · exact ⟨_, rfl⟩
      show (extractLoop lines (n + 1) i r (some w)).2 = some w
      unfold extractLoop
      split
      · exact (ih (i + 1) _ (some w)).2.1 (by simp)
      · rfl
    · intro hr hc
      obtain ⟨v, rfl⟩ : ∃ v, r = some v := by
        cases r
        · exact absurd rfl hr
        · exact ⟨_, rfl⟩
      obtain ⟨w, rfl⟩ : ∃ w, c = some w := by
        cases c
        · exact absurd rfl hc
        · exact ⟨_, rfl⟩
      unfold extractLoop
      rw [if_neg (by simp)]

/-- C8 witness: with both outcomes already set and unvisited lines
remaining, the loop stops at once and keeps both values. -/
theorem C8_witness :
    extractLoop [("Revenues 1,000".data), ("Cost of Sales 2,000".data)] 2 0
      (some ("1".data)) (some ("2".data)) = (some ("1".data), some ("2".data)) :=
  (C8_resolution_monotonic _ 2 0 _ _).2.2 (by simp) (by simp)

theorem scoreToken_ge_neg7 (t : List Char) : -7 ≤ scoreToken t := by
  simp only [scoreToken]
  split_ifs <;> omega

theorem pickLoop_go (cs : List (List Char)) :
    ∀ (idx b s : Int), b < idx →
      (pickLoop cs idx b s = b
        ∧ ∀ (j : Nat) (hj : j < cs.length), scoreToken (cs.get ⟨j, hj⟩) < s)
      ∨ (∃ (k : Nat) (hk : k < cs.length),
          pickLoop cs idx b s = idx + (k : Int)
          ∧ s ≤ scoreToken (cs.get ⟨k, hk⟩)
          ∧ (∀ (j : Nat) (hj : j < cs.length),
              scoreToken (cs.get ⟨j, hj⟩) ≤ scoreToken (cs.get ⟨k, hk⟩))
          ∧ (∀ (j : Nat) (hj : j < cs.length), k < j →
              scoreToken (cs.get ⟨j, hj⟩) < scoreToken (cs.get ⟨k, hk⟩))) := by
  induction cs with
  | nil =>
    intro idx b s hb
    left
    exact ⟨rfl, fun j hj => absurd hj (by simp)⟩
  | cons c rest ih =>
    intro idx b s hb
    have hred : pickLoop (c :: rest) idx b s
        = if scoreToken c > s ∨ (scoreToken c = s ∧ idx > b)
          then pickLoop rest (idx + 1) idx (scoreToken c)
          else pickLoop rest (idx + 1) b s := rfl
    by_cases hcs : s ≤ scoreToken c
    · have hstep : pickLoop (c :: rest) idx b s
          = pickLoop rest (idx + 1) idx (scoreToken c) := by
        rw [hred]
        apply if_pos
        rcases lt_or_eq_of_le hcs with h | h
        · exact Or.inl h
        · exact Or.inr ⟨h.symm, hb⟩
      rcases ih (idx + 1) idx (scoreToken c) (by omega) with
        ⟨heq, hall⟩ | ⟨k, hk, heq, hge, hmax, hlast⟩
      · right
        refine ⟨0, by simp, ?_, by simpa using hcs, ?_, ?_⟩
        · rw [hstep, heq]; simp
        · intro j hj
          cases j with
          | zero => simp
          | succ m =>
            have hm : m < rest.length := by simpa using hj
            have h1 := hall m hm
            simp only [List.get_cons_succ, List.get_cons_zero]
            exact le_of_lt h1
        · intro j hj hlt
          cases j with
          | zero => omega
          | succ m =>
            have hm : m < rest.length := by simpa using hj
            have h1 := hall m hm
            simp only [List.get_cons_succ, List.get_cons_zero]
            exact h1
      · right
        refine ⟨k + 1, by simpa using hk, ?_, ?_, ?_, ?_⟩
        · rw [hstep, heq]; push_cast; ring
        · simp only [List.get_cons_succ]
          exact le_trans hcs hge
        · intro j hj
          cases j with
          | zero =>
            simp only [List.get_cons_succ, List.get_cons_zero]
            exact hge
          | succ m =>
            have hm : m < rest.length := by simpa using hj
            simp only [List.get_cons_succ]
            exact hmax m hm
        · intro j hj hlt
          cases j with
          | zero => omega
          | succ m =>
            have hm : m < rest.length := by simpa using hj
            simp only [List.get_cons_succ]
            exact hlast m hm (by omega)
    · have hlt : scoreToken c < s := lt_of_not_le hcs
      have hstep : pickLoop (c :: rest) idx b s = pickLoop rest (idx + 1) b s := by
        rw [hred]
        apply if_neg
        rintro (h | ⟨h, _⟩) <;> omega
      rcases ih (idx + 1) b s (by omega) with
        ⟨heq, hall⟩ | ⟨k, hk, heq, hge, hmax, hlast⟩
      · left
        refine ⟨by rw [hstep, heq], ?_⟩
        intro j hj
        cases j with
        | zero => simpa using hlt
        | succ m =>
          have hm : m < rest.length := by simpa using hj
          simp only [List.get_cons_succ]
          exact hall m hm
      · right
        refine ⟨k + 1, by simpa using hk, ?_, ?_, ?_, ?_⟩
        · rw [hstep, heq]; push_cast; ring
        · simp only [List.get_cons_succ]
          exact hge
        · intro j hj
          cases j with
          | zero =>
            simp only [List.get_cons_succ, List.get_cons_zero]
            exact le_trans (le_of_lt hlt) hge
          | succ m =>
            have hm : m < rest.length := by simpa using hj
            simp only [List.get_cons_succ]
            exact hmax m hm
        · intro j hj hlt2
          cases j with
          | zero => omega
          | succ m =>
            have hm : m < rest.length := by simpa using hj
            simp only [List.get_cons_succ]
            exact hlast m hm (by omega)

theorem moneyLikeTokens_ne_nil {l : List (List Char)} (h : l ≠ []) :
    moneyLikeTokens l ≠ [] := by
  intro hnil
  simp only [moneyLikeTokens] at hnil
  split at hnil
  · exact h hnil
  · rename_i hg
    apply hg
    rw [hnil]
    rfl

theorem matchNumberAt_tok_ne_nil {l tok rest : List Char}
    (h : matchNumberAt l = some (tok, rest)) : tok ≠ [] := by
  simp only [matchNumberAt] at h
  set p1 := takeOpt '(' l with hp1
  set w1 := p1.2.takeWhile isWs with hw1
  set r2 := p1.2.dropWhile isWs with hr2
  set p3 := takeOpt '$' r2 with hp3
  set w2 := p3.2.takeWhile isWs with hw2
  set r4 := p3.2.dropWhile isWs with hr4
  set p5 := takeUpToDigits 3 r4 with hp5
  set p6 := matchGroups p5.2.length p5.2 with hp6
  set p7 := matchFrac p6.2 with hp7
  set w3 := p7.2.takeWhile isWs with hw3
  set r8 := p7.2.dropWhile isWs with hr8
  set p9 := takeOpt ')' r8 with hp9
  split at h
  · exact absurd h (by simp)
  · rename_i hne
    injection h with h2
    rw [Prod.mk.injEq] at h2
    obtain ⟨h3, -⟩ := h2
    intro hnil
    rw [← h3] at hnil
    simp only [List.append_eq_nil] at hnil
    exact hne (by rw [hnil.1.1.1.1.2]; rfl)

theorem scanTokens_pos_le : ∀ (fuel : Nat) (l : List Char) (pos : Nat),
    ∀ x ∈ scanTokens fuel l pos, pos ≤ x.1 := by
  intro fuel
  induction fuel with
  | zero =>
    intro l pos x hx
    simp [scanTokens] at hx
  | succ n ih =>
    intro l pos x hx
    cases l with
    | nil => simp [scanTokens] at hx
    | cons c rest =>
      simp only [scanTokens] at hx
      cases hm : matchNumberAt (c :: rest) with
      | none =>
        simp only [hm] at hx
        have h2 := ih rest (pos + 1) x hx
        omega
      | some pr =>
        obtain ⟨tok, r⟩ := pr
        simp only [hm] at hx
        rcases List.mem_cons.mp hx with rfl | hx2
        · exact le_refl pos
        · have h2 := ih r (pos + tok.length) x hx2
          omega

theorem scanTokens_pos_sorted : ∀ (fuel : Nat) (l : List Char) (pos : Nat),
    (scanTokens fuel l pos).Pairwise (fun x y => x.1 < y.1) := by
  intro fuel
  induction fuel with
  | zero =>
    intro l pos
    simp [scanTokens]
  | succ n ih =>
    intro l pos
    cases l with
    | nil => simp [scanTokens]
    | cons c rest =>
      simp only [scanTokens]
      cases hm : matchNumberAt (c :: rest) with
      | none => exact ih rest (pos + 1)
      | some pr =>
        obtain ⟨tok, r⟩ := pr
        show List.Pairwise _ ((pos, tok) :: scanTokens n r (pos + tok.length))
        refine List.Pairwise.cons ?_ (ih r (pos + tok.length))
        intro y hy
        have h1 := scanTokens_pos_le n r (pos + tok.length) y hy
        have h2 : tok ≠ [] := matchNumberAt_tok_ne_nil hm
        have h3 : 1 ≤ tok.length := by
          cases tok with
          | nil => exact absurd rfl h2
          | cons a t => simp
        show pos < y.1
        omega

/-- C6: `_pick_best` over any non-empty candidate list first re-filters
it through the money-like test (falling back to the original list when
nothing passes, as the source's `good or tokens` does) and returns the
member of that re-filtered list at an index `k` of maximal score such
that every later member scores strictly lower — i.e. on a score tie the
candidate occurring later wins; and list order is line order: the
tokenizer emits matches at strictly increasing start offsets, so a later
index is a larger start offset on the line. -/
theorem C6_pick_best_last_argmax (cands : List (List Char)) (hne : cands ≠ []) :
    (∃ (k : Nat) (hk : k < (moneyLikeTokens cands).length),
      pickBest cands = some ((moneyLikeTokens cands).get ⟨k, hk⟩)
      ∧ (∀ (j : Nat) (hj : j < (moneyLikeTokens cands).length),
          scoreToken ((moneyLikeTokens cands).get ⟨j, hj⟩)
            ≤ scoreToken ((moneyLikeTokens cands).get ⟨k, hk⟩))
      ∧ (∀ (j : Nat) (hj : j < (moneyLikeTokens cands).length), k < j →
          scoreToken ((moneyLikeTokens cands).get ⟨j, hj⟩)
            < scoreToken ((moneyLikeTokens cands).get ⟨k, hk⟩)))
    ∧ ∀ (fuel : Nat) (l : List Char) (pos : Nat),
        (scanTokens fuel l pos).Pairwise (fun x y => x.1 < y.1) := by
  refine ⟨?_, scanTokens_pos_sorted⟩
  have hcne : moneyLikeTokens cands ≠ [] := moneyLikeTokens_ne_nil hne
  rcases pickLoop_go (moneyLikeTokens cands) 0 (-1) (-(10 : Int) ^ 9)
      (by norm_num) with
    ⟨_, hall⟩ | ⟨k, hk, heq, _, hmax, hlast⟩
  · exfalso
    have h0 : 0 < (moneyLikeTokens cands).length := List.length_pos.mpr hcne
    have h1 := hall 0 h0
    have h2 := scoreToken_ge_neg7 ((moneyLikeTokens cands).get ⟨0, h0⟩)
    have h3 : -(10 : Int) ^ 9 = -1000000000 := by norm_num
    omega
  · refine ⟨k, hk, ?_, hmax, hlast⟩
    simp only [pickBest]
    rw [if_neg (by simpa [List.isEmpty_iff] using hne), heq]
    have h4 : ((0 : Int) + (k : Int)).toNat = k := by omega
    rw [h4]
    exact List.get?_eq_get hk

/-- C6 witness: two equal-scored currency candidates (both kept by the
money-like re-filter) — the later one is returned. -/
theorem C6_witness :
    (∃ (k : Nat)
      (hk : k < (moneyLikeTokens [" $1,234".data, " $5,678".data]).length),
      pickBest [" $1,234".data, " $5,678".data]
        = some ((moneyLikeTokens [" $1,234".data, " $5,678".data]).get ⟨k, hk⟩)
      ∧ (∀ (j : Nat)
          (hj : j < (moneyLikeTokens [" $1,234".data, " $5,678".data]).length),
          scoreToken ((moneyLikeTokens [" $1,234".data, " $5,678".data]).get ⟨j, hj⟩)
            ≤ scoreToken ((moneyLikeTokens [" $1,234".data, " $5,678".data]).get ⟨k, hk⟩))
      ∧ (∀ (j : Nat)
          (hj : j < (moneyLikeTokens [" $1,234".data, " $5,678".data]).length),
          k < j →
          scoreToken ((moneyLikeTokens [" $1,234".data, " $5,678".data]).get ⟨j, hj⟩)
            < scoreToken ((moneyLikeTokens [" $1,234".data, " $5,678".data]).get ⟨k, hk⟩)))
    ∧ ∀ (fuel : Nat) (l : List Char) (pos : Nat),
        (scanTokens fuel l pos).Pairwise (fun x y => x.1 < y.1) :=
  C6_pick_best_last_argmax [" $1,234".data, " $5,678".data] (by decide)

theorem head?_filter {α : Type} (p : α → Bool) (l : List α) :
    (l.filter p).head? = l.find? p := by
  induction l with
  | nil => rfl
  | cons a t ih =>
    by_cases h : p a
    · simp [List.filter_cons, h]
    · simp [List.filter_cons, h, ih]

theorem drop_cons_of_get? {α : Type} : ∀ (l : List α) (i : Nat) (a : α),
    l.get? i = some a → l.drop i = a :: l.drop (i + 1) := by
  intro l
  induction l with
  | nil => intro i a h; cases i <;> simp at h
  | cons x t ih =>
    intro i a h
    cases i with
    | zero =>
      simp only [List.get?_cons_zero, Option.some.injEq] at h
      rw [h]
      rfl
    | succ n =>
      rw [List.get?_cons_succ] at h
      show t.drop n = a :: t.drop (n + 1)
      exact ih n a h

theorem lookLines_eq_spec (lines : List (List Char)) :
    ∀ (rem i : Nat), lookLines lines i rem
      = ((lines.drop i).take rem).findSome? specLineChoice := by
  intro rem
  induction rem with
  | zero => intro i; rfl
  | succ n ih =>
    intro i
    cases hget : lines.get? i with
    | none =>
      have hlen : lines.length ≤ i := List.get?_eq_none.mp hget
      have hdrop : lines.drop i = [] := List.drop_eq_nil_of_le hlen
      simp only [lookLines]
      rw [hget, hdrop]
      rfl
    | some ln =>
      have hdrop := drop_cons_of_get? lines i ln hget
      simp only [lookLines, hget]
      rw [hdrop, List.take_succ_cons, List.findSome?_cons]
      by_cases hb : (pyStrip ln).isEmpty
      · rw [if_pos hb]
        have hnil : pyStrip ln = [] := by simpa [List.isEmpty_iff] using hb
        have hspec : specLineChoice ln = none := by
          unfold specLineChoice
          rw [hnil]
          rfl
        rw [hspec]
        exact ih (i + 1)
      · rw [if_neg hb]
        by_cases hr : (numberTokensFrom (pyStrip ln) 0).isEmpty
        · rw [if_pos hr]
          have hnil : numberTokensFrom (pyStrip ln) 0 = [] := by
            simpa [List.isEmpty_iff] using hr
          have hspec : specLineChoice ln = none := by
            unfold specLineChoice
            rw [hnil]
            rfl
          rw [hspec]
          exact ih (i + 1)
        · rw [if_neg hr]
          by_cases hd : ((numberTokensFrom (pyStrip ln) 0).filter
              (fun t => t.contains '$')).isEmpty
          · rw [if_neg (by simpa using hd)]
            have hfd : (numberTokensFrom (pyStrip ln) 0).find?
                (fun t => t.contains '$') = none := by
              rw [← head?_filter, List.head?_eq_none_iff]
              simpa [List.isEmpty_iff] using hd
            by_cases hl : ((numberTokensFrom (pyStrip ln) 0).filter lookKeep).isEmpty
            · rw [if_neg (by simpa using hl)]
              have hfl : (numberTokensFrom (pyStrip ln) 0).find? lookKeep = none := by
                rw [← head?_filter, List.head?_eq_none_iff]
                simpa [List.isEmpty_iff] using hl
              have hspec : specLineChoice ln = none := by
                unfold specLineChoice
                dsimp only
                rw [hfd, hfl]
              rw [hspec]
              exact ih (i + 1)
            · rw [if_pos (by simpa using hl)]
              cases hh : ((numberTokensFrom (pyStrip ln) 0).filter lookKeep).head? with
              | none =>
                rw [List.head?_eq_none_iff] at hh
                rw [hh] at hl
                simp at hl
              | some t =>
                have hspec : specLineChoice ln = some t := by
                  unfold specLineChoice
                  dsimp only
                  rw [hfd, ← head?_filter, hh]
                rw [hspec]
                unfold pickLeftmost
                rw [hh]
          · rw [if_pos (by simpa using hd)]
            cases hh : ((numberTokensFrom (pyStrip ln) 0).filter
                (fun t => t.contains '$')).head? with
            | none =>
              rw [List.head?_eq_none_iff] at hh
              rw [hh] at hd
              simp at hd
            | some d =>
              have hspec : specLineChoice ln = some d := by
                unfold specLineChoice
                dsimp only
                rw [← head?_filter, hh]
              rw [hspec]
              unfold pickLeftmost
              rw [hh]

/-- C1: the implementation's bounded lookahead agrees, for every document,
start line and window — in particular the windows 10 (Revenue) and 12
(Cost of Sales) that `extract_values_from_pdf` passes — with the spec's
description: scan forward the next `window` lines, skipping blank ones;
on each line select the leftmost token containing a currency symbol if
one exists, else the leftmost non-year token with ≥ 4 normalized digits
if one exists, else continue; if the window is exhausted without a
qualifying token the result is `none` (outcome `Absent`) — the scan is a
total function, so no error can be raised. -/
theorem C1_lookahead_refines_spec :
    ∀ (lines : List (List Char)) (startIdx : Nat),
      bestNumberInNextLines lines startIdx 10 = lookaheadSpec lines startIdx 10
      ∧ bestNumberInNextLines lines startIdx 12 = lookaheadSpec lines startIdx 12
      ∧ (∀ window, bestNumberInNextLines lines startIdx window
          = lookaheadSpec lines startIdx window) := by
  intro lines startIdx
  have key : ∀ window, bestNumberInNextLines lines startIdx window
      = lookaheadSpec lines startIdx window := by
    intro w
    unfold bestNumberInNextLines lookaheadSpec
    exact lookLines_eq_spec lines w (startIdx + 1)
  exact ⟨key 10, key 12, key⟩

theorem ws_not_digit {c : Char} (h : isWs c = true) : isDigitC c = false := by
  simp only [isWs, Bool.or_eq_true, decide_eq_true_eq] at h
  rcases h with ⟨⟨⟨⟨h | h⟩ | h⟩ | h⟩ | h⟩ | h <;> subst h <;> rfl

theorem sep_not_digit {c : Char} (h : isSep c = true) : isDigitC c = false := by
  simp only [isSep, Bool.or_eq_true, decide_eq_true_eq] at h
  rcases h with ⟨h | h⟩ | h
  · exact ws_not_digit h
  · subst h; rfl
  · subst h; rfl

theorem takeOpt_mem {c0 : Char} {l : List Char} :
    ∀ c ∈ (takeOpt c0 l).1, c = c0 := by
  intro c hc
  cases l with
  | nil => simp [takeOpt] at hc
  | cons x t =>
    simp only [takeOpt] at hc
    by_cases hx : x = c0
    · rw [if_pos hx] at hc
      simpa using hc
    · rw [if_neg hx] at hc
      simp at hc

theorem takeWhile_head_prop {p : Char → Bool} {l : List Char} :
    l.takeWhile p = [] ∨ ∃ c cs, l.takeWhile p = c :: cs ∧ p c = true := by
  cases hX : l.takeWhile p with
  | nil => exact Or.inl rfl
  | cons c cs =>
    right
    refine ⟨c, cs, rfl, ?_⟩
    have : c ∈ l.takeWhile p := by rw [hX]; exact List.mem_cons_self c cs
    exact (mem_of_mem_takeWhile this).2

theorem takeUpToDigits_spec : ∀ (n : Nat) (l : List Char),
    (takeUpToDigits n l).1.length ≤ n
    ∧ (∀ c ∈ (takeUpToDigits n l).1, isDigitC c = true) := by
  intro n
  induction n with
  | zero =>
    intro l
    exact ⟨by simp [takeUpToDigits], by simp [takeUpToDigits]⟩
  | succ m ih =>
    intro l
    cases l with
    | nil => exact ⟨by simp [takeUpToDigits], by simp [takeUpToDigits]⟩
    | cons c rest =>
      by_cases hc : isDigitC c
      · constructor
        · simp only [takeUpToDigits, hc, if_true]
          simpa using (ih rest).1
        · simp only [takeUpToDigits, hc, if_true]
          intro x hx
          rcases List.mem_cons.mp hx with rfl | hx
          · exact hc
          · exact (ih rest).2 x hx
      · constructor <;> simp [takeUpToDigits, hc]

theorem matchGroups_fst_head : ∀ (fuel : Nat) (l : List Char),
    (matchGroups fuel l).1 = []
    ∨ ∃ c cs, (matchGroups fuel l).1 = c :: cs ∧ isDigitC c = false := by
  intro fuel l
  cases fuel with
  | zero => exact Or.inl rfl
  | succ m =>
    simp only [matchGroups]
    split
    · exact Or.inl rfl
    · rename_i hcond
      rcases takeWhile_head_prop (p := isSep) (l := l) with hr | ⟨c, cs, hr, hsep⟩
      · exfalso
        apply hcond
        rw [hr]
        rfl
      · right
        rw [hr]
        exact ⟨c, cs ++ (takeUpToDigits 3 (l.dropWhile isSep)).1
            ++ (matchGroups m (takeUpToDigits 3 (l.dropWhile isSep)).2).1,
          by simp, sep_not_digit hsep⟩

theorem matchFrac_fst_head (l : List Char) :
    (matchFrac l).1 = []
    ∨ ∃ c cs, (matchFrac l).1 = c :: cs ∧ isDigitC c = false := by
  simp only [matchFrac]
  split
  · split
    · exact Or.inl rfl
    · exact Or.inr ⟨'.', _, rfl, rfl⟩
  · exact Or.inl rfl

theorem dropWhile_append_all {p : Char → Bool} {xs ys : List Char}
    (h : ∀ c ∈ xs, p c = true) : (xs ++ ys).dropWhile p = ys.dropWhile p := by
  induction xs with
  | nil => rfl
  | cons x t ih =>
    rw [List.cons_append, List.dropWhile_cons, h x (List.mem_cons_self x t)]
    simp only [if_true]
    exact ih (fun c hc => h c (List.mem_cons_of_mem x hc))

theorem takeWhile_append_stop {e post : List Char}
    (he : ∀ c ∈ e, isDigitC c = true)
    (hpost : post = [] ∨ ∃ d ds, post = d :: ds ∧ isDigitC d = false) :
    (e ++ post).takeWhile isDigitC = e := by
  induction e with
  | nil =>
    rcases hpost with rfl | ⟨d, ds, rfl, hd⟩
    · rfl
    · rw [List.nil_append, List.takeWhile_cons, hd]
      rfl
  | cons x t ih =>
    rw [List.cons_append, List.takeWhile_cons, he x (List.mem_cons_self x t)]
    simp only [if_true]
    rw [ih (fun c hc => he c (List.mem_cons_of_mem x hc))]

theorem head_nondigit_append {xs ys : List Char}
    (hx : xs = [] ∨ ∃ c cs, xs = c :: cs ∧ isDigitC c = false)
    (hy : ys = [] ∨ ∃ c cs, ys = c :: cs ∧ isDigitC c = false) :
    xs ++ ys = [] ∨ ∃ c cs, xs ++ ys = c :: cs ∧ isDigitC c = false := by
  rcases hx with rfl | ⟨c, cs, rfl, hc⟩
  · simpa using hy
  · exact Or.inr ⟨c, cs ++ ys, rfl, hc⟩

theorem firstDigitRun_of_shape {a1 w1 a3 w2 e tl : List Char}
    (h1 : ∀ c ∈ a1, isDigitC c = false)
    (h2 : ∀ c ∈ w1, isDigitC c = false)
    (h3 : ∀ c ∈ a3, isDigitC c = false)
    (h4 : ∀ c ∈ w2, isDigitC c = false)
    (he : ∀ c ∈ e, isDigitC c = true) (hene : e ≠ [])
    (htl : tl = [] ∨ ∃ d ds, tl = d :: ds ∧ isDigitC d = false) :
    firstDigitRun (a1 ++ (w1 ++ (a3 ++ (w2 ++ (e ++ tl))))) = e := by
  unfold firstDigitRun
  rw [dropWhile_append_all (fun c hc => by simp [h1 c hc])]
  rw [dropWhile_append_all (fun c hc => by simp [h2 c hc])]
  rw [dropWhile_append_all (fun c hc => by simp [h3 c hc])]
  rw [dropWhile_append_all (fun c hc => by simp [h4 c hc])]
  cases e with
  | nil => exact absurd rfl hene
  | cons c e2 =>
    simp only [List.cons_append, List.dropWhile_cons]
    rw [if_neg (by rw [he c (List.mem_cons_self c e2)]; simp)]
    rw [← List.cons_append]
    exact takeWhile_append_stop he htl

theorem matchNumberAt_firstDigitRun {l tok rest : List Char}
    (h : matchNumberAt l = some (tok, rest)) :
    (firstDigitRun tok).length ≤ 3 := by
  simp only [matchNumberAt] at h
  set p1 := takeOpt '(' l with hp1
  set w1 := p1.2.takeWhile isWs with hw1
  set r2 := p1.2.dropWhile isWs with hr2
  set p3 := takeOpt '$' r2 with hp3
  set w2 := p3.2.takeWhile isWs with hw2
  set r4 := p3.2.dropWhile isWs with hr4
  set p5 := takeUpToDigits 3 r4 with hp5
  set p6 := matchGroups p5.2.length p5.2 with hp6
  set p7 := matchFrac p6.2 with hp7
  set w3 := p7.2.takeWhile isWs with hw3
  set r8 := p7.2.dropWhile isWs with hr8
  set p9 := takeOpt ')' r8 with hp9
  split at h
  · exact absurd h (by simp)
  · rename_i hne
    rw [Option.some.injEq, Prod.mk.injEq] at h
    obtain ⟨htok, -⟩ := h
    rw [← htok]
    have ha1 : ∀ c ∈ p1.1, isDigitC c = false := by
      intro c hc
      rw [hp1] at hc
      rw [takeOpt_mem c hc]
      rfl
    have hb1 : ∀ c ∈ w1, isDigitC c = false := by
      intro c hc
      rw [hw1] at hc
      exact ws_not_digit (mem_of_mem_takeWhile hc).2
    have ha3 : ∀ c ∈ p3.1, isDigitC c = false := by
      intro c hc
      rw [hp3] at hc
      rw [takeOpt_mem c hc]
      rfl
    have hb2 : ∀ c ∈ w2, isDigitC c = false := by
      intro c hc
      rw [hw2] at hc
      exact ws_not_digit (mem_of_mem_takeWhile hc).2
    have hdigs : ∀ c ∈ p5.1, isDigitC c = true := by
      intro c hc
      rw [hp5] at hc
      exact (takeUpToDigits_spec 3 r4).2 c hc
    have hne2 : p5.1 ≠ [] := by
      intro hnil
      apply hne
      rw [hnil]
      rfl
    have hG : p6.1 = [] ∨ ∃ c cs, p6.1 = c :: cs ∧ isDigitC c = false := by
      rw [hp6]
      exact matchGroups_fst_head p5.2.length p5.2
    have hF : p7.1 = [] ∨ ∃ c cs, p7.1 = c :: cs ∧ isDigitC c = false := by
      rw [hp7]
      exact matchFrac_fst_head p6.2
    have hW3 : w3 = [] ∨ ∃ c cs, w3 = c :: cs ∧ isDigitC c = false := by
      rw [hw3]
      rcases takeWhile_head_prop (p := isWs) (l := p7.2) with hx | ⟨c, cs, hx, hw⟩
      · exact Or.inl hx
      · exact Or.inr ⟨c, cs, hx, ws_not_digit hw⟩
    have hP9 : p9.1 = [] ∨ ∃ c cs, p9.1 = c :: cs ∧ isDigitC c = false := by
      cases h9 : p9.1 with
      | nil => exact Or.inl rfl
      | cons c cs =>
        right
        refine ⟨c, cs, rfl, ?_⟩
        have hcc : c = ')' := by
          apply @takeOpt_mem ')' r8
          rw [hp9] at h9
          rw [h9]
          exact List.mem_cons_self c cs
        rw [hcc]
        rfl
    have htl := head_nondigit_append hG (head_nondigit_append hF
      (head_nondigit_append hW3 hP9))
    have hshape := firstDigitRun_of_shape ha1 hb1 ha3 hb2 hdigs hne2 htl
    calc (firstDigitRun (p1.1 ++ w1 ++ p3.1 ++ w2 ++ p5.1 ++ p6.1 ++ p7.1
            ++ w3 ++ p9.1)).length
        = (firstDigitRun (p1.1 ++ (w1 ++ (p3.1 ++ (w2 ++ (p5.1 ++ (p6.1
            ++ (p7.1 ++ (w3 ++ p9.1))))))))).length := by
          simp only [List.append_assoc]
      _ = p5.1.length := by rw [hshape]
      _ ≤ 3 := by
          rw [hp5]
          exact (takeUpToDigits_spec 3 r4).1

theorem scanTokens_shape : ∀ (fuel : Nat) (l : List Char) (pos : Nat)
    (pr : Nat × List Char), pr ∈ scanTokens fuel l pos →
    ∃ l2 r, matchNumberAt l2 = some (pr.2, r) := by
  intro fuel
  induction fuel with
  | zero => intro l pos pr h; simp [scanTokens] at h
  | succ n ih =>
    intro l pos pr h
    cases l with
    | nil => simp [scanTokens] at h
    | cons c rest =>
      cases hm : matchNumberAt (c :: rest) with
      | some p =>
        obtain ⟨tok, r⟩ := p
        simp only [scanTokens, hm] at h
        rcases List.mem_cons.mp h with rfl | h2
        · exact ⟨c :: rest, r, by rw [hm]⟩
        · exact ih _ _ _ h2
      | none =>
        simp only [scanTokens, hm] at h
        exact ih _ _ _ h

/-- C10: the tokenizer's grammar caps the leading digit group of every
emitted token at 3 digits (`\d{1,3}`); consequently, on the document line
`Revenues $ 350018` — an amount written without grouping separators —
the same-line search selects the raw token `" $ 350"` and extraction
returns revenue `350`: the ungrouped amount is silently truncated to its
leading digits rather than extracted whole or reported `Absent`. -/
theorem C10_leading_digit_group_bounded :
    (∀ (line : List Char) (startIdx : Nat),
      ∀ t ∈ numberTokensFrom line startIdx, (firstDigitRun t).length ≤ 3)
    ∧ bestNumberAfterLabel ("Revenues $ 350018".data) 8 = some (" $ 350".data)
    ∧ extractFromLines [("Revenues $ 350018".data)] = (some ("350".data), none) := by
  refine ⟨?_, by decide, by decide⟩
  intro line startIdx t ht
  unfold numberTokensFrom at ht
  rw [List.mem_map] at ht
  obtain ⟨pr, hpr, rfl⟩ := ht
  obtain ⟨l2, r, hm⟩ := scanTokens_shape _ _ _ _ hpr
  exact matchNumberAt_firstDigitRun hm

/-- C10 witness: the bound applied to the token `"018"` of the same
line. -/
theorem C10_witness : (firstDigitRun ("018".data)).length ≤ 3 :=
  C10_leading_digit_group_bounded.1 ("Revenues $ 350018".data) 8 ("018".data)
    (by decide)

theorem decValue_alignedDiff (a b : Int × Int) :
    decValue (alignedDiff a b, min a.2 b.2) = decValue a - decValue b := by
  simp only [decValue, alignedDiff]
  have h10 : (10 : ℚ) ≠ 0 := by norm_num
  push_cast
  rw [sub_mul, mul_assoc, mul_assoc,
      ← zpow_natCast (10 : ℚ) (a.2 - min a.2 b.2).toNat,
      ← zpow_natCast (10 : ℚ) (b.2 - min a.2 b.2).toNat,
      ← zpow_add₀ h10, ← zpow_add₀ h10,
      show ((a.2 - min a.2 b.2).toNat : ℤ) + min a.2 b.2 = a.2 by omega,
      show ((b.2 - min a.2 b.2).toNat : ℤ) + min a.2 b.2 = b.2 by omega]

theorem decValue_zero (e : Int) : decValue (0, e) = 0 := by
  simp [decValue]

theorem decFix_zero (e : Int) :
    decFix 0 e = some (0, min emaxC (max etinyC e)) := by
  unfold decFix
  rw [if_pos rfl]

theorem decFix_exact {c e0 : Int} (hc : c ≠ 0)
    (hd : (numDigits c.natAbs : Int) ≤ (precC : Int))
    (hlo : etinyC ≤ e0) (hhi : e0 + (numDigits c.natAbs : Int) - 1 ≤ emaxC) :
    decFix c e0 = some (c, e0) := by
  unfold decFix
  rw [if_neg hc]
  dsimp only
  rw [if_pos (by omega)]
  rw [if_neg (by omega)]

theorem decNormalize_zero (e : Int) : decNormalize (0, e) = some (0, 0) := by
  unfold decNormalize
  dsimp only
  rw [decFix_zero]
  dsimp only
  rw [if_pos rfl]

theorem decNormalize_exact {c e0 : Int} (hc : c ≠ 0)
    (hd : (numDigits c.natAbs : Int) ≤ (precC : Int))
    (hlo : etinyC ≤ e0) (hhi : e0 + (numDigits c.natAbs : Int) - 1 ≤ emaxC) :
    decNormalize (c, e0) = some (normLoop c.natAbs c e0) := by
  unfold decNormalize
  dsimp only
  rw [decFix_exact hc hd hlo hhi]
  dsimp only
  rw [if_neg hc]

theorem decValue_normLoop : ∀ (fuel : Nat) (m e : Int),
    decValue (normLoop fuel m e) = decValue (m, e) := by
  intro fuel
  induction fuel with
  | zero => intro m e; rfl
  | succ n ih =>
    intro m e
    simp only [normLoop]
    split
    · rename_i hcond
      rw [ih]
      obtain ⟨hm0, hmod⟩ := hcond
      obtain ⟨k, rfl⟩ : (10 : ℤ) ∣ m := Int.dvd_of_emod_eq_zero hmod
      simp only [decValue]
      rw [Int.mul_ediv_cancel_left k (by norm_num)]
      push_cast
      rw [zpow_add₀ (by norm_num : (10 : ℚ) ≠ 0) e 1]
      ring
    · rfl


theorem normLoop_post : ∀ (fuel : Nat) (m e : Int), m ≠ 0 → m.natAbs ≤ fuel →
    (normLoop fuel m e).1 ≠ 0 ∧ ¬((normLoop fuel m e).1 % 10 = 0) := by
  intro fuel
  induction fuel with
  | zero =>
    intro m e hm hf
    exfalso
    apply hm
    omega
  | succ n ih =>
    intro m e hm hf
    simp only [normLoop]
    split
    · rename_i hcond
      obtain ⟨-, hmod⟩ := hcond
      obtain ⟨k, rfl⟩ : (10 : ℤ) ∣ m := Int.dvd_of_emod_eq_zero hmod
      rw [Int.mul_ediv_cancel_left k (by norm_num)]
      have hk : k ≠ 0 := by
        intro h
        apply hm
        rw [h]
        ring
      have h1 : (10 * k).natAbs = 10 * k.natAbs := by
        rw [Int.natAbs_mul]
        rfl
      exact ih k (e + 1) hk (by omega)
    · rename_i hcond
      exact ⟨hm, fun hmod => hcond ⟨hm, hmod⟩⟩


theorem digitChar_digit {r : Nat} (h : r < 10) : isDigitC (digitChar r) = true := by
  interval_cases r <;> rfl

theorem digitChar_val {r : Nat} (h : r < 10) :
    (digitChar r).toNat - '0'.toNat = r := by
  interval_cases r <;> rfl

theorem digitChar_ne_zero {r : Nat} (h : r < 10) (h0 : r ≠ 0) :
    digitChar r ≠ '0' := by
  interval_cases r
  all_goals first
  | exact absurd rfl h0
  | decide

theorem digit_not_ws {c : Char} (h : isDigitC c = true) : isWs c = false := by
  by_contra hc
  rw [Bool.not_eq_false] at hc
  rw [ws_not_digit hc] at h
  cases h

theorem digit_ne_dot {c : Char} (h : isDigitC c = true) : c ≠ '.' := by
  intro hc
  rw [hc] at h
  cases h

theorem digit_ne_dash {c : Char} (h : isDigitC c = true) : c ≠ '-' := by
  intro hc
  rw [hc] at h
  cases h

theorem digitsVal_go : ∀ (l : List Char) (a : Nat),
    l.foldl (fun x c => 10 * x + (c.toNat - '0'.toNat)) a
      = a * 10 ^ l.length + digitsVal l := by
  intro l
  induction l with
  | nil => intro a; simp [digitsVal]
  | cons c t ih =>
    intro a
    rw [List.foldl_cons, ih]
    have h2 : digitsVal (c :: t)
        = (c.toNat - '0'.toNat) * 10 ^ t.length + digitsVal t := by
      show List.foldl (fun x c => 10 * x + (c.toNat - '0'.toNat)) 0 (c :: t) = _
      rw [List.foldl_cons, ih]
      norm_num
    rw [h2, List.length_cons]
    ring

theorem digitsVal_append (xs ys : List Char) :
    digitsVal (xs ++ ys) = digitsVal xs * 10 ^ ys.length + digitsVal ys := by
  show List.foldl (fun x c => 10 * x + (c.toNat - '0'.toNat)) 0 (xs ++ ys) = _
  rw [List.foldl_append, digitsVal_go]
  rfl

theorem digitsVal_replicate_zero (k : Nat) :
    digitsVal (List.replicate k '0') = 0 := by
  induction k with
  | zero => rfl
  | succ n ih =>
    rw [List.replicate_succ]
    unfold digitsVal
    rw [List.foldl_cons, digitsVal_go]
    simp only [Nat.sub_self, Nat.mul_zero, Nat.add_zero, Nat.zero_mul, Nat.zero_add]
    exact ih

theorem natDigitsAux_spec : ∀ (fuel n : Nat), n < 10 ^ fuel →
    digitsVal (natDigitsAux fuel n) = n
    ∧ (∀ c ∈ natDigitsAux fuel n, isDigitC c = true) := by
  intro fuel
  induction fuel with
  | zero =>
    intro n h
    have h0 : n = 0 := by simpa using h
    subst h0
    exact ⟨rfl, by simp [natDigitsAux]⟩
  | succ f ih =>
    intro n h
    by_cases h0 : n = 0
    · subst h0
      exact ⟨rfl, by simp [natDigitsAux]⟩
    · have hdiv : n / 10 < 10 ^ f := by
        rw [Nat.div_lt_iff_lt_mul (by norm_num)]
        calc n < 10 ^ (f + 1) := h
          _ = 10 ^ f * 10 := by rw [pow_succ]
      obtain ⟨ihv, ihd⟩ := ih (n / 10) hdiv
      have hm : n % 10 < 10 := Nat.mod_lt n (by omega)
      constructor
      · simp only [natDigitsAux, h0, if_false]
        rw [digitsVal_append, ihv]
        have hone : digitsVal [digitChar (n % 10)] = n % 10 := by
          show 10 * 0 + ((digitChar (n % 10)).toNat - '0'.toNat) = n % 10
          rw [digitChar_val hm]
          omega
        rw [hone]
        simp only [List.length_cons, List.length_nil, pow_one, pow_zero]
        omega
      · intro c hc
        simp only [natDigitsAux, h0, if_false] at hc
        rcases List.mem_append.mp hc with hc | hc
        · exact ihd c hc
        · have hcc : c = digitChar (n % 10) := by simpa using hc
          rw [hcc]
          exact digitChar_digit hm

theorem natDigits_spec (n : Nat) :
    digitsVal (natDigits n) = n
    ∧ (∀ c ∈ natDigits n, isDigitC c = true)
    ∧ natDigits n ≠ [] := by
  unfold natDigits
  split
  · rename_i h
    subst h
    refine ⟨rfl, ?_, by simp⟩
    intro c hc
    have : c = '0' := by simpa using hc
    rw [this]
    rfl
  · rename_i h0
    have hlt : n < 10 ^ (n + 1) := by
      calc n < 10 ^ n := Nat.lt_pow_self (by norm_num) n
        _ ≤ 10 ^ (n + 1) := Nat.pow_le_pow_right (by norm_num) (by omega)
    obtain ⟨hv, hd⟩ := natDigitsAux_spec (n + 1) n hlt
    refine ⟨hv, hd, ?_⟩
    simp only [natDigitsAux, h0, if_false]
    simp

theorem natDigits_getLast {n : Nat} (h0 : n ≠ 0) :
    (natDigits n).getLast? = some (digitChar (n % 10)) := by
  unfold natDigits
  rw [if_neg h0]
  simp only [natDigitsAux, h0, if_false]
  rw [List.getLast?_concat]

theorem takeWhile_all_digits {l : List Char} (h : ∀ c ∈ l, isDigitC c = true) :
    l.takeWhile isDigitC = l := by
  induction l with
  | nil => rfl
  | cons c t ih =>
    rw [List.takeWhile_cons, h c (List.mem_cons_self c t)]
    simp only [if_true]
    rw [ih (fun x hx => h x (List.mem_cons_of_mem c hx))]

theorem dropWhile_all_digits {l : List Char} (h : ∀ c ∈ l, isDigitC c = true) :
    l.dropWhile isDigitC = [] := by
  induction l with
  | nil => rfl
  | cons c t ih =>
    rw [List.dropWhile_cons, h c (List.mem_cons_self c t)]
    simp only [if_true]
    exact ih (fun x hx => h x (List.mem_cons_of_mem c hx))

theorem takeWhile_append_halt {xs : List Char} {y : Char} {ys : List Char}
    (hx : ∀ c ∈ xs, isDigitC c = true) (hy : isDigitC y = false) :
    (xs ++ y :: ys).takeWhile isDigitC = xs := by
  induction xs with
  | nil =>
    rw [List.nil_append, List.takeWhile_cons, hy]
    rfl
  | cons c t ih =>
    rw [List.cons_append, List.takeWhile_cons, hx c (List.mem_cons_self c t)]
    simp only [if_true]
    rw [ih (fun x hxm => hx x (List.mem_cons_of_mem c hxm))]

theorem dropWhile_append_halt {xs : List Char} {y : Char} {ys : List Char}
    (hx : ∀ c ∈ xs, isDigitC c = true) (hy : isDigitC y = false) :
    (xs ++ y :: ys).dropWhile isDigitC = y :: ys := by
  induction xs with
  | nil =>
    rw [List.nil_append, List.dropWhile_cons, hy]
    rfl
  | cons c t ih =>
    rw [List.cons_append, List.dropWhile_cons, hx c (List.mem_cons_self c t)]
    simp only [if_true]
    exact ih (fun x hxm => hx x (List.mem_cons_of_mem c hxm))

theorem head?_append_left {xs ys : List Char} (h : xs ≠ []) :
    (xs ++ ys).head? = xs.head? := by
  cases xs with
  | nil => exact absurd rfl h
  | cons a t => rfl

theorem getLast?_append_right {xs ys : List Char} (h : ys ≠ []) :
    (xs ++ ys).getLast? = ys.getLast? := by
  rw [← List.head?_reverse, ← List.head?_reverse, List.reverse_append]
  exact head?_append_left (by simpa using h)

theorem rstripChar_eq_self {c : Char} {l : List Char}
    (h : ∀ x, l.getLast? = some x → x ≠ c) : rstripChar c l = l := by
  unfold rstripChar
  cases hr : l.reverse with
  | nil =>
    rw [List.dropWhile_nil, ← hr, List.reverse_reverse]
  | cons a t =>
    have ha : a ≠ c := by
      apply h
      rw [← List.head?_reverse, hr]
      rfl
    rw [List.dropWhile_cons]
    rw [if_neg (by simpa using ha)]
    rw [← hr, List.reverse_reverse]

theorem contains_eq_false_of_not_mem {c : Char} {l : List Char} (h : c ∉ l) :
    l.contains c = false := by
  by_contra hc
  rw [Bool.not_eq_false] at hc
  exact h (List.elem_iff.mp hc)

theorem parseUnsignedDec_digits {ds : List Char}
    (h : ∀ c ∈ ds, isDigitC c = true) (hne : ds ≠ []) :
    parseUnsignedDec ds = some ((digitsVal ds : Int), 0) := by
  unfold parseUnsignedDec
  dsimp only
  rw [takeWhile_all_digits h, dropWhile_all_digits h]
  rw [if_neg (by simp)]
  rw [if_neg (by simpa [List.isEmpty_iff] using hne)]
  rfl

theorem parseUnsignedDec_point {ip fp : List Char}
    (hip : ∀ c ∈ ip, isDigitC c = true) (hfp : ∀ c ∈ fp, isDigitC c = true)
    (hipne : ip ≠ []) :
    parseUnsignedDec (ip ++ '.' :: fp)
      = some ((digitsVal (ip ++ fp) : Int), -(fp.length : Int)) := by
  unfold parseUnsignedDec
  dsimp only
  rw [takeWhile_append_halt hip (by decide), dropWhile_append_halt hip (by decide)]
  rw [if_pos (show (('.' :: fp).head? = some '.') from rfl)]
  simp only [List.tail_cons]
  rw [takeWhile_all_digits hfp, dropWhile_all_digits hfp]
  rw [if_neg (by simp [List.isEmpty_iff, hipne])]
  rfl

theorem parseNum_head_digit {s : List Char}
    (hw : ∀ c ∈ s, isWs c = false) (hu : '_' ∉ s)
    (hh : ∃ c cs, s = c :: cs ∧ isDigitC c = true) :
    parseNum s = parseUnsignedDec s := by
  obtain ⟨c, cs, rfl, hc⟩ := hh
  have h1 : ¬((c :: cs).head? = some '-') := by
    simp only [List.head?_cons, Option.some.injEq]
    intro h
    exact digit_ne_dash hc h
  have h2 : ¬((c :: cs).head? = some '+') := by
    simp only [List.head?_cons, Option.some.injEq]
    intro h
    rw [h] at hc
    cases hc
  unfold parseNum
  dsimp only
  rw [pyStrip_eq_self hw, removeChar_eq_self hu, if_neg h1, if_neg h2]

theorem parseNum_neg_digits {u : List Char}
    (hw : ∀ c ∈ u, isWs c = false) (hu : '_' ∉ u) :
    parseNum ('-' :: u) = (parseUnsignedDec u).map (fun p => (-p.1, p.2)) := by
  have hw2 : ∀ c ∈ ('-' :: u), isWs c = false := by
    intro c hc
    rcases List.mem_cons.mp hc with rfl | hc
    · rfl
    · exact hw c hc
  have hu2 : '_' ∉ ('-' :: u) := by
    intro h
    rcases List.mem_cons.mp h with h | h
    · exact absurd h (by decide)
    · exact hu h
  unfold parseNum
  dsimp only
  rw [pyStrip_eq_self hw2, removeChar_eq_self hu2]
  rw [if_pos (show (('-' :: u).head? = some '-') from rfl)]
  rfl

theorem parseNum_signed (c : Prop) [Decidable c] {u : List Char}
    {v : Int × Int} (hw : ∀ x ∈ u, isWs x = false) (hu : '_' ∉ u)
    (hh : ∃ x xs, u = x :: xs ∧ isDigitC x = true)
    (hp : parseUnsignedDec u = some v) :
    parseNum ((if c then ['-'] else []) ++ u)
      = some (if c then (-v.1, v.2) else v) := by
  by_cases hc : c
  · rw [if_pos hc, if_pos hc]
    show parseNum ('-' :: u) = _
    rw [parseNum_neg_digits hw hu, hp]
    rfl
  · rw [if_neg hc, if_neg hc, List.nil_append]
    rw [parseNum_head_digit hw hu hh, hp]

theorem parseDecimal_fin {l : List Char} {p : Int × Int}
    (h : parseNum l = some p) : parseDecimal l = some (.fin p.1 p.2) := by
  unfold parseDecimal
  rw [h]

theorem decValue_signed (c : Prop) [Decidable c] (x e0 : Int) :
    decValue (if c then (-x, e0) else (x, e0))
      = (if c then (-1 : ℚ) else 1) * decValue (x, e0) := by
  by_cases hc : c
  · rw [if_pos hc, if_pos hc]
    simp only [decValue]
    push_cast
    ring
  · rw [if_neg hc, if_neg hc, one_mul]

theorem sign_natAbs_eq (m : Int) :
    (if m < 0 then (-1 : ℚ) else 1) * (m.natAbs : ℚ) = (m : ℚ) := by
  rw [Int.cast_natAbs]
  by_cases hms : m < 0
  · rw [if_pos hms, abs_of_neg hms]
    push_cast
    ring
  · rw [if_neg hms, abs_of_nonneg (not_lt.mp hms), one_mul]

theorem parse_format_nonneg {m e : Int} (hm : m ≠ 0) (he : 0 ≤ e) :
    ∃ p, parseNum (stripTrailingZeros (formatF (m, e))) = some p
      ∧ decValue p = decValue (m, e)
      ∧ stripTrailingZeros (formatF (m, e)) ≠ ['-', '0']
      ∧ stripTrailingZeros (formatF (m, e)) ≠ ['-', '0', '.', '0']
      ∧ stripTrailingZeros (formatF (m, e)) ≠ ['0', '.', '0'] := by
  have ha0 : m.natAbs ≠ 0 := by simpa using hm
  obtain ⟨hdsv, hdsd, hdsne⟩ := natDigits_spec m.natAbs
  have hdd : ∀ c ∈ natDigits m.natAbs ++ List.replicate e.toNat '0',
      isDigitC c = true := by
    intro c hc
    rcases List.mem_append.mp hc with hc | hc
    · exact hdsd c hc
    · rw [List.eq_of_mem_replicate hc]
      rfl
  have hdne : natDigits m.natAbs ++ List.replicate e.toNat '0' ≠ [] := by
    intro hnil
    exact hdsne (List.append_eq_nil.mp hnil).1
  have hdv : digitsVal (natDigits m.natAbs ++ List.replicate e.toNat '0')
      = m.natAbs * 10 ^ e.toNat := by
    rw [digitsVal_append, hdsv, digitsVal_replicate_zero, List.length_replicate]
    simp
  have hform : formatF (m, e) = (if m < 0 then ['-'] else [])
      ++ (natDigits m.natAbs ++ List.replicate e.toNat '0') := by
    unfold formatF
    dsimp only
    rw [if_pos he, List.append_assoc]
  have hchars : ∀ c ∈ (if m < 0 then ['-'] else [])
      ++ (natDigits m.natAbs ++ List.replicate e.toNat '0'),
      c = '-' ∨ isDigitC c = true := by
    intro c hc
    rcases List.mem_append.mp hc with hc | hc
    · left
      by_cases hms : m < 0
      · rw [if_pos hms] at hc
        simpa using hc
      · rw [if_neg hms] at hc
        simp at hc
    · right
      exact hdd c hc
  have hnodot : '.' ∉ ((if m < 0 then ['-'] else [])
      ++ (natDigits m.natAbs ++ List.replicate e.toNat '0')) := by
    intro hc
    rcases hchars '.' hc with h | h
    · exact absurd h (by decide)
    · exact absurd h (by decide)
  have hstrip : stripTrailingZeros (formatF (m, e)) = (if m < 0 then ['-'] else [])
      ++ (natDigits m.natAbs ++ List.replicate e.toNat '0') := by
    rw [hform]
    unfold stripTrailingZeros
    rw [if_neg (by
      intro hcc
      rw [contains_eq_false_of_not_mem hnodot] at hcc
      cases hcc)]
  have hval0 : digitsVal (natDigits m.natAbs ++ List.replicate e.toNat '0') ≠ 0 := by
    rw [hdv]
    exact Nat.mul_ne_zero ha0 (pow_ne_zero e.toNat (by norm_num))
  have hn1 : stripTrailingZeros (formatF (m, e)) ≠ ['-', '0'] := by
    rw [hstrip]
    intro heq
    by_cases hms : m < 0
    · rw [if_pos hms] at heq
      simp only [List.singleton_append, List.cons.injEq, true_and] at heq
      apply hval0
      rw [heq]
      decide
    · rw [if_neg hms, List.nil_append] at heq
      have hmem : isDigitC '-' = true := by
        apply hdd
        rw [heq]
        exact List.mem_cons_self _ _
      exact absurd hmem (by decide)
  have hn2 : stripTrailingZeros (formatF (m, e)) ≠ ['-', '0', '.', '0'] := by
    rw [hstrip]
    intro heq
    apply hnodot
    rw [heq]
    decide
  have hn3 : stripTrailingZeros (formatF (m, e)) ≠ ['0', '.', '0'] := by
    rw [hstrip]
    intro heq
    apply hnodot
    rw [heq]
    decide
  have hws : ∀ x ∈ natDigits m.natAbs ++ List.replicate e.toNat '0',
      isWs x = false := fun c hc => digit_not_ws (hdd c hc)
  have hund : '_' ∉ natDigits m.natAbs ++ List.replicate e.toNat '0' := by
    intro h
    exact absurd (hdd '_' h) (by decide)
  have hhead : ∃ x xs, natDigits m.natAbs ++ List.replicate e.toNat '0' = x :: xs
      ∧ isDigitC x = true := by
    cases hq : natDigits m.natAbs ++ List.replicate e.toNat '0' with
    | nil => exact absurd hq hdne
    | cons x xs =>
      refine ⟨x, xs, rfl, ?_⟩
      apply hdd
      rw [hq]
      exact List.mem_cons_self _ _
  have hparse := parseUnsignedDec_digits hdd hdne
  refine ⟨if m < 0
      then (-(digitsVal (natDigits m.natAbs ++ List.replicate e.toNat '0') : Int),
            (0 : Int))
      else ((digitsVal (natDigits m.natAbs ++ List.replicate e.toNat '0') : Int),
            (0 : Int)),
    ?_, ?_, hn1, hn2, hn3⟩
  · rw [hstrip]
    exact parseNum_signed (m < 0) hws hund hhead hparse
  · rw [decValue_signed]
    have hA : decValue
        ((digitsVal (natDigits m.natAbs ++ List.replicate e.toNat '0') : Int),
          (0 : Int)) = (m.natAbs : ℚ) * 10 ^ e.toNat := by
      simp only [decValue]
      rw [zpow_zero, mul_one, hdv]
      push_cast
      rw [Int.cast_natAbs, Int.cast_abs]
    have hB : decValue (m, e) = (m : ℚ) * 10 ^ e.toNat := by
      simp only [decValue]
      have hE : e = (e.toNat : Int) := by omega
      conv_lhs => rw [hE]
      rw [zpow_natCast]
    rw [hA, hB, ← mul_assoc, sign_natAbs_eq]

theorem parse_format_negexp {m e : Int} (hm : m ≠ 0) (hmod : ¬(m % 10 = 0))
    (he : e < 0) :
    ∃ p, parseNum (stripTrailingZeros (formatF (m, e))) = some p
      ∧ decValue p = decValue (m, e)
      ∧ stripTrailingZeros (formatF (m, e)) ≠ ['-', '0']
      ∧ stripTrailingZeros (formatF (m, e)) ≠ ['-', '0', '.', '0']
      ∧ stripTrailingZeros (formatF (m, e)) ≠ ['0', '.', '0'] := by
  have ha0 : m.natAbs ≠ 0 := by simpa using hm
  obtain ⟨hdsv, hdsd, hdsne⟩ := natDigits_spec m.natAbs
  have hk1 : 1 ≤ (-e).toNat := by omega
  set ds : List Char := if (natDigits m.natAbs).length ≤ (-e).toNat
      then List.replicate ((-e).toNat + 1 - (natDigits m.natAbs).length) '0'
        ++ natDigits m.natAbs
      else natDigits m.natAbs with hds
  have hdd : ∀ c ∈ ds, isDigitC c = true := by
    intro c hc
    rw [hds] at hc
    split at hc
    · rcases List.mem_append.mp hc with hc | hc
      · rw [List.eq_of_mem_replicate hc]
        rfl
      · exact hdsd c hc
    · exact hdsd c hc
  have hdsvv : digitsVal ds = m.natAbs := by
    rw [hds]
    split
    · rw [digitsVal_append, digitsVal_replicate_zero, hdsv]
      simp
    · exact hdsv
  have hlen : (-e).toNat + 1 ≤ ds.length := by
    rw [hds]
    split
    · rename_i hle
      rw [List.length_append, List.length_replicate]
      have h1 : 1 ≤ (natDigits m.natAbs).length := by
        cases hq : natDigits m.natAbs with
        | nil => exact absurd hq hdsne
        | cons x xs => simp
      omega
    · rename_i hgt
      omega
  have hgl : ds.getLast? = some (digitChar (m.natAbs % 10)) := by
    rw [hds]
    split
    · rw [getLast?_append_right hdsne]
      exact natDigits_getLast ha0
    · exact natDigits_getLast ha0
  have hamod : m.natAbs % 10 ≠ 0 := by
    intro h
    apply hmod
    have h1 : (10 : ℕ) ∣ m.natAbs := Nat.dvd_of_mod_eq_zero h
    have h2 : (10 : ℤ) ∣ (m.natAbs : ℤ) := Int.natCast_dvd_natCast.mpr h1
    rw [Int.dvd_natAbs] at h2
    exact Int.emod_eq_zero_of_dvd h2
  have hlast_ne : digitChar (m.natAbs % 10) ≠ '0' :=
    digitChar_ne_zero (Nat.mod_lt _ (by norm_num)) hamod
  set ip : List Char := ds.take (ds.length - (-e).toNat) with hip
  set fp : List Char := ds.drop (ds.length - (-e).toNat) with hfp
  have hipfp : ip ++ fp = ds := by
    rw [hip, hfp]
    exact List.take_append_drop _ _
  have hipne : ip ≠ [] := by
    rw [hip]
    intro h
    have h2 := congrArg List.length h
    rw [List.length_take] at h2
    simp only [List.length_nil] at h2
    omega
  have hfplen : fp.length = (-e).toNat := by
    rw [hfp, List.length_drop]
    omega
  have hfpne : fp ≠ [] := by
    intro h
    have h2 := congrArg List.length h
    rw [hfplen] at h2
    simp only [List.length_nil] at h2
    omega
  have hipd : ∀ c ∈ ip, isDigitC c = true := by
    intro c hc
    rw [hip] at hc
    exact hdd c (List.take_subset _ _ hc)
  have hfpd : ∀ c ∈ fp, isDigitC c = true := by
    intro c hc
    rw [hfp] at hc
    exact hdd c (List.drop_subset _ _ hc)
  have hglfp : fp.getLast? = some (digitChar (m.natAbs % 10)) := by
    rw [← hipfp] at hgl
    rw [getLast?_append_right hfpne] at hgl
    exact hgl
  have hform : formatF (m, e) = (if m < 0 then ['-'] else []) ++ (ip ++ '.' :: fp) := by
    unfold formatF
    dsimp only
    rw [if_neg (not_le.mpr he)]
    rw [← hds, ← hip, ← hfp, List.append_assoc]
  have hglast : (formatF (m, e)).getLast? = some (digitChar (m.natAbs % 10)) := by
    rw [hform]
    rw [getLast?_append_right (by simp : (ip ++ '.' :: fp) ≠ [])]
    rw [getLast?_append_right (by simp : ('.' :: fp) ≠ [])]
    rw [show ('.' :: fp) = ['.'] ++ fp from rfl]
    rw [getLast?_append_right hfpne]
    exact hglfp
  have hdotmem : '.' ∈ formatF (m, e) := by
    rw [hform]
    exact List.mem_append.mpr (Or.inr (List.mem_append.mpr
      (Or.inr (List.mem_cons_self _ _))))
  have hcont : (formatF (m, e)).contains '.' = true := List.elem_iff.mpr hdotmem
  have h0strip : rstripChar '0' (formatF (m, e)) = formatF (m, e) := by
    apply rstripChar_eq_self
    intro x hx
    rw [hglast] at hx
    injection hx with hx
    rw [← hx]
    exact hlast_ne
  have hdotstrip : rstripChar '.' (formatF (m, e)) = formatF (m, e) := by
    apply rstripChar_eq_self
    intro x hx
    rw [hglast] at hx
    injection hx with hx
    rw [← hx]
    exact digit_ne_dot (digitChar_digit (Nat.mod_lt _ (by norm_num)))
  have hstrip : stripTrailingZeros (formatF (m, e)) = formatF (m, e) := by
    unfold stripTrailingZeros
    rw [if_pos hcont, h0strip, hdotstrip]
  have hnf : ∀ f : List Char, f.getLast? = some '0' → formatF (m, e) ≠ f := by
    intro f hf heq
    rw [heq, hf] at hglast
    injection hglast with hx
    exact hlast_ne hx.symm
  have hn1 : stripTrailingZeros (formatF (m, e)) ≠ ['-', '0'] := by
    rw [hstrip]
    exact hnf _ (by decide)
  have hn2 : stripTrailingZeros (formatF (m, e)) ≠ ['-', '0', '.', '0'] := by
    rw [hstrip]
    exact hnf _ (by decide)
  have hn3 : stripTrailingZeros (formatF (m, e)) ≠ ['0', '.', '0'] := by
    rw [hstrip]
    exact hnf _ (by decide)
  have hws2 : ∀ x ∈ ip ++ '.' :: fp, isWs x = false := by
    intro x hx
    rcases List.mem_append.mp hx with hx | hx
    · exact digit_not_ws (hipd x hx)
    · rcases List.mem_cons.mp hx with rfl | hx
      · rfl
      · exact digit_not_ws (hfpd x hx)
  have hund2 : '_' ∉ ip ++ '.' :: fp := by
    intro hx
    rcases List.mem_append.mp hx with hx | hx
    · exact absurd (hipd '_' hx) (by decide)
    · rcases List.mem_cons.mp hx with hx | hx
      · exact absurd hx (by decide)
      · exact absurd (hfpd '_' hx) (by decide)
  have hhead : ∃ x xs, ip ++ '.' :: fp = x :: xs ∧ isDigitC x = true := by
    cases hq : ip with
    | nil => exact absurd hq hipne
    | cons c cs =>
      refine ⟨c, cs ++ '.' :: fp, by rw [List.cons_append], ?_⟩
      apply hipd
      rw [hq]
      exact List.mem_cons_self _ _
  have hparse := parseUnsignedDec_point hipd hfpd hipne
  refine ⟨if m < 0
      then (-(digitsVal (ip ++ fp) : Int), -(fp.length : Int))
      else ((digitsVal (ip ++ fp) : Int), -(fp.length : Int)),
    ?_, ?_, hn1, hn2, hn3⟩
  · rw [hstrip, hform]
    exact parseNum_signed (m < 0) hws2 hund2 hhead hparse
  · rw [decValue_signed]
    have hA : decValue ((digitsVal (ip ++ fp) : Int), -(fp.length : Int))
        = (m.natAbs : ℚ) * 10 ^ (-(fp.length : Int)) := by
      simp only [decValue]
      rw [hipfp, hdsvv, Int.cast_natCast]
    have hB : decValue (m, e) = (m : ℚ) * 10 ^ e := by
      simp only [decValue]
    rw [hA, hB, hfplen]
    rw [show (-(((-e).toNat : ℕ) : ℤ)) = e by omega]
    rw [← mul_assoc, sign_natAbs_eq]

theorem parse_format_fin {m e : Int} (hm : m ≠ 0) (hmod : ¬(m % 10 = 0)) :
    ∃ p, parseNum (formatGp (.fin m e)) = some p ∧ decValue p = decValue (m, e) := by
  by_cases hee : 0 ≤ e
  · obtain ⟨p, hp, hv, h1, h2, h3⟩ := parse_format_nonneg hm hee
    have hgp : formatGp (.fin m e) = stripTrailingZeros (formatF (m, e)) := by
      unfold formatGp formatFDec
      dsimp only
      rw [if_neg (by
        rintro (h | h | h)
        · exact h1 h
        · exact h2 h
        · exact h3 h)]
    refine ⟨p, ?_, hv⟩
    rw [hgp]
    exact hp
  · obtain ⟨p, hp, hv, h1, h2, h3⟩ :=
      parse_format_negexp hm hmod (not_le.mp hee)
    have hgp : formatGp (.fin m e) = stripTrailingZeros (formatF (m, e)) := by
      unfold formatGp formatFDec
      dsimp only
      rw [if_neg (by
        rintro (h | h | h)
        · exact h1 h
        · exact h2 h
        · exact h3 h)]
    refine ⟨p, ?_, hv⟩
    rw [hgp]
    exact hp

/-- C4 counterexample: the arithmetic is not exact on every pair of
parseable inputs — the default context rounds `rev - cos` half-even to
28 significant digits.  On revenue `1` followed by 29 zeros (a
30-digit parseable string) and cost `1`, the exact difference is the
29-digit `10^29 - 1`, which rounds back up to `10^29`: the program
returns the revenue string unchanged, whose value differs from the
exact difference. -/
theorem C4_counterexample :
    computeGrossProfit (some ("100000000000000000000000000000".data))
        (some ("1".data))
      = .ok ("100000000000000000000000000000".data)
    ∧ parseDecimal ("100000000000000000000000000000".data)
        = some (.fin 100000000000000000000000000000 0)
    ∧ parseDecimal ("1".data) = some (.fin 1 0)
    ∧ decValue (100000000000000000000000000000, 0)
        ≠ decValue (100000000000000000000000000000, 0) - decValue (1, 0) := by
  refine ⟨by decide, by decide, by decide, ?_⟩
  simp only [decValue]
  norm_num

/-- C4 (amended): `compute_gross_profit` computes `revenue -
cost_of_sales` by decimal arithmetic (integer-scaled values, never
binary floating point) that is exact whenever the exact difference fits
the default context: when its coefficient has at most the context's 28
significant digits and the aligned exponent lies in the context range,
the returned string parses back to exactly the difference; beyond that
the context rounds half-even.  The formatter emits plain decimal
notation with trailing fractional zeros, a bare point and the
negative-zero forms removed; in particular
`gross_profit("350018","146306") = "203712"`,
`gross_profit("1000.00","200.50") = "799.5"` and
`gross_profit("0","0") = "0"`. -/
theorem C4_gross_profit_exact :
    (∀ (r c : List Char) (m1 e1 m2 e2 : Int),
      parseDecimal r = some (.fin m1 e1) → parseDecimal c = some (.fin m2 e2) →
      (numDigits (alignedDiff (m1, e1) (m2, e2)).natAbs : Int) ≤ (precC : Int) →
      etinyC ≤ min e1 e2 → min e1 e2 + (precC : Int) - 1 ≤ emaxC →
      ∃ g, computeGrossProfit (some r) (some c) = .ok g
        ∧ ∃ p : Int × Int, parseDecimal g = some (.fin p.1 p.2)
            ∧ decValue p = decValue (m1, e1) - decValue (m2, e2))
    ∧ computeGrossProfit (some ("350018".data)) (some ("146306".data))
        = .ok ("203712".data)
    ∧ computeGrossProfit (some ("1000.00".data)) (some ("200.50".data))
        = .ok ("799.5".data)
    ∧ computeGrossProfit (some ("0".data)) (some ("0".data)) = .ok ("0".data) := by
  refine ⟨?_, by decide, by decide, by decide⟩
  intro r c m1 e1 m2 e2 hr hc hd hlo hhi
  have hval := decValue_alignedDiff (m1, e1) (m2, e2)
  rw [computeGrossProfit_parsed hr hc]
  by_cases hD0 : alignedDiff (m1, e1) (m2, e2) = 0
  · have hps : pyDecSub (.fin m1 e1) (.fin m2 e2)
        = some (.fin 0 (min emaxC (max etinyC (min e1 e2)))) := by
      show (decSub (m1, e1) (m2, e2)).map _ = _
      unfold decSub
      rw [hD0, decFix_zero]
      rfl
    have hpr : pyDecReduce (.fin 0 (min emaxC (max etinyC (min e1 e2))))
        = some (.fin 0 0) := by
      show (decNormalize (0, min emaxC (max etinyC (min e1 e2)))).map
          (fun p => PyDec.fin p.1 p.2) = some (.fin 0 0)
      rw [decNormalize_zero]
      rfl
    simp only [hps, hpr]
    refine ⟨formatGp (.fin 0 0), rfl, (0, 0), by decide, ?_⟩
    rw [← hval, hD0]
    simp [decValue]
  · have hfix : decFix (alignedDiff (m1, e1) (m2, e2)) (min e1 e2)
        = some (alignedDiff (m1, e1) (m2, e2), min e1 e2) :=
      decFix_exact hD0 hd hlo (by omega)
    have hps : pyDecSub (.fin m1 e1) (.fin m2 e2)
        = some (.fin (alignedDiff (m1, e1) (m2, e2)) (min e1 e2)) := by
      show (decSub (m1, e1) (m2, e2)).map _ = _
      unfold decSub
      rw [hfix]
      rfl
    obtain ⟨hq0, hqmod⟩ := normLoop_post (alignedDiff (m1, e1) (m2, e2)).natAbs
      (alignedDiff (m1, e1) (m2, e2)) (min e1 e2) hD0 le_rfl
    have hqval := decValue_normLoop (alignedDiff (m1, e1) (m2, e2)).natAbs
      (alignedDiff (m1, e1) (m2, e2)) (min e1 e2)
    have hpr : pyDecReduce (.fin (alignedDiff (m1, e1) (m2, e2)) (min e1 e2))
        = some (.fin (normLoop (alignedDiff (m1, e1) (m2, e2)).natAbs
            (alignedDiff (m1, e1) (m2, e2)) (min e1 e2)).1
          (normLoop (alignedDiff (m1, e1) (m2, e2)).natAbs
            (alignedDiff (m1, e1) (m2, e2)) (min e1 e2)).2) := by
      show (decNormalize (alignedDiff (m1, e1) (m2, e2), min e1 e2)).map
          (fun p => PyDec.fin p.1 p.2)
        = some (.fin (normLoop (alignedDiff (m1, e1) (m2, e2)).natAbs
            (alignedDiff (m1, e1) (m2, e2)) (min e1 e2)).1
          (normLoop (alignedDiff (m1, e1) (m2, e2)).natAbs
            (alignedDiff (m1, e1) (m2, e2)) (min e1 e2)).2)
      rw [decNormalize_exact hD0 hd hlo (by omega)]
      rfl
    simp only [hps, hpr]
    obtain ⟨p, hp, hv⟩ := parse_format_fin hq0 hqmod
    refine ⟨_, rfl, p, parseDecimal_fin hp, ?_⟩
    have hv2 : decValue p
        = decValue (alignedDiff (m1, e1) (m2, e2), min e1 e2) := by
      rw [hv]
      exact hqval
    exact hv2.trans hval

/-- C4 witness: the exactness statement applied at ("350018", "146306"),
whose 6-digit exact difference fits the context. -/
theorem C4_witness :
    ∃ g, computeGrossProfit (some ("350018".data)) (some ("146306".data)) = .ok g
      ∧ ∃ p : Int × Int, parseDecimal g = some (.fin p.1 p.2)
          ∧ decValue p = decValue (350018, 0) - decValue (146306, 0) :=
  C4_gross_profit_exact.1 ("350018".data) ("146306".data) 350018 0 146306 0
    (by decide) (by decide) (by decide) (by decide) (by decide)

end DealMover
